import Mathlib

set_option maxRecDepth 4000

/-!
Shallow embedding of the ccpr repository (src/ccpr/__init__.py): the
response-cache layer `ccapi`, the query/join engine `cc` / `_join_data`,
and the structural diff renderer `print_diff` (which is built on Python's
`difflib._mdiff`; that library function is embedded faithfully below from
the CPython source, since the renderer's observable behaviour is defined
by it).

Python JSON-ish values are modelled by `JVal`; Python dicts (which keep
insertion order) are association lists with first-occurrence lookup,
in-place replacement on update, and append for fresh keys.
-/

inductive JVal where
  | null
  | bool (b : Bool)
  | int (n : Int)
  | str (s : String)
  | arr (elems : List JVal)
  | obj (fields : List (String × JVal))

mutual

def JVal.decEq : (a b : JVal) → Decidable (a = b)
  | .null, .null => isTrue rfl
  | .null, .bool _ => isFalse (fun h => JVal.noConfusion h)
  | .null, .int _ => isFalse (fun h => JVal.noConfusion h)
  | .null, .str _ => isFalse (fun h => JVal.noConfusion h)
  | .null, .arr _ => isFalse (fun h => JVal.noConfusion h)
  | .null, .obj _ => isFalse (fun h => JVal.noConfusion h)
  | .bool _, .null => isFalse (fun h => JVal.noConfusion h)
  | .bool a, .bool b =>
    if h : a = b then isTrue (by rw [h]) else isFalse (fun hc => h (by cases hc; rfl))
  | .bool _, .int _ => isFalse (fun h => JVal.noConfusion h)
  | .bool _, .str _ => isFalse (fun h => JVal.noConfusion h)
  | .bool _, .arr _ => isFalse (fun h => JVal.noConfusion h)
  | .bool _, .obj _ => isFalse (fun h => JVal.noConfusion h)
  | .int _, .null => isFalse (fun h => JVal.noConfusion h)
  | .int _, .bool _ => isFalse (fun h => JVal.noConfusion h)
  | .int a, .int b =>
    if h : a = b then isTrue (by rw [h]) else isFalse (fun hc => h (by cases hc; rfl))
  | .int _, .str _ => isFalse (fun h => JVal.noConfusion h)
  | .int _, .arr _ => isFalse (fun h => JVal.noConfusion h)
  | .int _, .obj _ => isFalse (fun h => JVal.noConfusion h)
  | .str _, .null => isFalse (fun h => JVal.noConfusion h)
  | .str _, .bool _ => isFalse (fun h => JVal.noConfusion h)
  | .str _, .int _ => isFalse (fun h => JVal.noConfusion h)
  | .str a, .str b =>
    if h : a = b then isTrue (by rw [h]) else isFalse (fun hc => h (by cases hc; rfl))
  | .str _, .arr _ => isFalse (fun h => JVal.noConfusion h)
  | .str _, .obj _ => isFalse (fun h => JVal.noConfusion h)
  | .arr _, .null => isFalse (fun h => JVal.noConfusion h)
  | .arr _, .bool _ => isFalse (fun h => JVal.noConfusion h)
  | .arr _, .int _ => isFalse (fun h => JVal.noConfusion h)
  | .arr _, .str _ => isFalse (fun h => JVal.noConfusion h)
  | .arr a, .arr b =>
    match JVal.decEqList a b with
    | isTrue h => isTrue (by rw [h])
    | isFalse h => isFalse (fun hc => h (by cases hc; rfl))
  | .arr _, .obj _ => isFalse (fun h => JVal.noConfusion h)
  | .obj _, .null => isFalse (fun h => JVal.noConfusion h)
  | .obj _, .bool _ => isFalse (fun h => JVal.noConfusion h)
  | .obj _, .int _ => isFalse (fun h => JVal.noConfusion h)
  | .obj _, .str _ => isFalse (fun h => JVal.noConfusion h)
  | .obj _, .arr _ => isFalse (fun h => JVal.noConfusion h)
  | .obj a, .obj b =>
    match JVal.decEqFields a b with
    | isTrue h => isTrue (by rw [h])
    | isFalse h => isFalse (fun hc => h (by cases hc; rfl))

def JVal.decEqList : (a b : List JVal) → Decidable (a = b)
  | [], [] => isTrue rfl
  | [], _ :: _ => isFalse (fun h => List.noConfusion h)
  | _ :: _, [] => isFalse (fun h => List.noConfusion h)
  | x :: xs, y :: ys =>
    match JVal.decEq x y, JVal.decEqList xs ys with
    | isTrue h1, isTrue h2 => isTrue (by rw [h1, h2])
    | isFalse h1, _ => isFalse (fun hc => h1 (by cases hc; rfl))
    | isTrue _, isFalse h2 => isFalse (fun hc => h2 (by cases hc; rfl))

def JVal.decEqFields : (a b : List (String × JVal)) → Decidable (a = b)
  | [], [] => isTrue rfl
  | [], _ :: _ => isFalse (fun h => List.noConfusion h)
  | _ :: _, [] => isFalse (fun h => List.noConfusion h)
  | (k1, v1) :: xs, (k2, v2) :: ys =>
    if hk : k1 = k2 then
      match JVal.decEq v1 v2, JVal.decEqFields xs ys with
      | isTrue h1, isTrue h2 => isTrue (by rw [hk, h1, h2])
      | isFalse h1, _ => isFalse (fun hc => h1 (by cases hc; rfl))
      | isTrue _, isFalse h2 => isFalse (fun hc => h2 (by cases hc; rfl))
    else isFalse (fun hc => hk (by cases hc; rfl))

end

instance : DecidableEq JVal := JVal.decEq

/-- A Python dict with string keys, in insertion order. -/
abbrev Dict := List (String × JVal)

/-- Python `d.get(k)` / `k in d`: first binding wins (keys are unique in
dicts built by the code below, so this is exact). -/
def dget (k : String) : Dict → Option JVal
  | [] => none
  | (k', v) :: rest => if k' = k then some v else dget k rest

/-- Python `d[k] = v`: replace the existing binding in place, else append. -/
def dset (d : Dict) (k : String) (v : JVal) : Dict :=
  match d with
  | [] => [(k, v)]
  | (k', v') :: rest => if k' = k then (k, v) :: rest else (k', v') :: dset rest k v

/-- Python `d.pop(k, None)`: drop the binding for `k` if present. -/
def dpop (k : String) : Dict → Dict
  | [] => []
  | (k', v') :: rest => if k' = k then rest else (k', v') :: dpop k rest

/-- Python `d.update(other)`: set each binding of `other` in order. -/
def dupdate (d : Dict) (other : Dict) : Dict :=
  other.foldl (fun acc kv => dset acc kv.1 kv.2) d

/-- Domain errors of the embedded code: `fatal` on a boto3 `ClientError`
(`RemoteCallFailed` in the spec's taxonomy), plus the Python runtime
errors the join code can raise. -/
inductive CcErr where
  | remoteCallFailed (method msg : String)
  | typeError (msg : String)
  | keyError (k : String)
  | indexError
deriving DecidableEq

/-- One `.cache` file in the temp-dir cache directory: file name,
last-write timestamp (`st_mtime`), and the stored (already
`ResponseMetadata`-stripped) response.  Serialization round-tripping via
`json.dumps`/`json.loads` is abstracted away: the stored value is kept
structurally. -/
structure CacheEntry where
  name : String
  mtime : Int
  content : Dict
deriving DecidableEq

/-- The sweep in `ccapi` (lines 236-246): on every invocation delete every
cache file strictly older than `now - cache_secs`, where `cache_secs` is
the CURRENT call's ttl.  (The `try/except` around `os.remove` tolerates a
concurrent deletion; in this single-process model removal always
succeeds.) -/
def sweepCache (cacheSecs now : Int) (store : List CacheEntry) : List CacheEntry :=
  store.filter (fun e => !(decide (e.mtime < now - cacheSecs)))

/-- Stand-in for line 247-250: `'%s-%s.cache' % (method,
sha256(json.dumps(kwargs)).hexdigest())`.  The hash is replaced by a
plain deterministic serialization of the argument dict; the claims rely
only on the key being a function of `(method, kwargs)`. -/
def jvalKeyRepr : JVal → String
  | .null => "null"
  | .bool b => toString b
  | .int n => toString n
  | .str s => s
  | .arr _ => "arr"
  | .obj _ => "obj"

def cacheFileName (method : String) (kwargs : Dict) : String :=
  method ++ "-"
    ++ String.intercalate "," (kwargs.map (fun kv => kv.1 ++ ":" ++ jvalKeyRepr kv.2))
    ++ ".cache"

/-- `os.path.isfile(cache_file)` plus reading it: first entry with the
given file name. -/
def findEntry (name : String) : List CacheEntry → Option CacheEntry
  | [] => none
  | e :: rest => if e.name = name then some e else findEntry name rest

/-- `open(cache_file, 'w').write(...)`: overwrite the existing file or
create it. -/
def writeEntry (name : String) (mtime : Int) (content : Dict) :
    List CacheEntry → List CacheEntry
  | [] => [⟨name, mtime, content⟩]
  | e :: rest =>
    if e.name = name then ⟨name, mtime, content⟩ :: rest
    else e :: writeEntry name mtime content rest

/-- Effective ttl (lines 225-227): `cache_secs` kwarg defaulting to 20,
overridden by the `CCPR_CACHE_SECS` environment variable when set. -/
def effectiveCacheSecs (kwargsVal envVal : Option Int) : Int :=
  match envVal with
  | some e => e
  | none => kwargsVal.getD 20

instance {ε α : Type} [DecidableEq ε] [DecidableEq α] : DecidableEq (Except ε α) := fun a b =>
  match a, b with
  | .ok x, .ok y =>
    if h : x = y then isTrue (by rw [h]) else isFalse (fun hc => h (by cases hc; rfl))
  | .error x, .error y =>
    if h : x = y then isTrue (by rw [h]) else isFalse (fun hc => h (by cases hc; rfl))
  | .ok _, .error _ => isFalse (fun hc => Except.noConfusion hc)
  | .error _, .ok _ => isFalse (fun hc => Except.noConfusion hc)

/-- Outcome of one `ccapi` invocation: the returned (or failed) response,
the cache directory afterwards, and whether the underlying boto3 call was
actually invoked. -/
structure CcapiOut where
  result : Except CcErr Dict
  store : List CacheEntry
  fetched : Bool
deriving DecidableEq

/-- `ccapi` (lines 221-268).  `cacheSecs` is the effective ttl after the
kwarg/environment resolution; `remote` is the boto3 call's outcome for
this method and (popped) argument set — `Except.error msg` models a
`ClientError`, which `fatal` turns into a process-aborting
`RemoteCallFailed`.  Steps, in source order: pop `_join_key` from the
kwargs (line 229); sweep the cache directory with the current ttl (lines
236-246); compute the cache file name from the remaining kwargs (247-250);
if ttl > 0 and the file exists, deserialize and return it (252-253), else
invoke boto3 (257), on `ClientError` fail (258-259), strip
`ResponseMetadata` (260), and persist if ttl > 0 (261-264); finally attach
the join key to the result (266-267). -/
def ccapi (method : String) (kwargs : Dict) (cacheSecs now : Int)
    (store : List CacheEntry) (remote : Except String Dict) : CcapiOut :=
  let joinKey := dget "_join_key" kwargs
  let kw := dpop "_join_key" kwargs
  let st1 := sweepCache cacheSecs now store
  let fname := cacheFileName method kw
  let attach : Dict → Dict := fun r =>
    match joinKey with
    | some v => dset r "_join_key" v
    | none => r
  match (if 0 < cacheSecs then findEntry fname st1 else none) with
  | some e => { result := .ok (attach e.content), store := st1, fetched := false }
  | none =>
    match remote with
    | .error msg =>
      { result := .error (.remoteCallFailed method msg), store := st1, fetched := true }
    | .ok r =>
      let r2 := dpop "ResponseMetadata" r
      let st2 := if 0 < cacheSecs then writeEntry fname now r2 st1 else st1
      { result := .ok (attach r2), store := st2, fetched := true }

-- ======================================================================
-- cc: working-data extraction and the join engine (lines 271-360)
-- ======================================================================

def JVal.isArr : JVal → Bool
  | .arr _ => true
  | _ => false

/-- The scan in `cc` (lines 288-292): `data = []`, then take the first
list-valued field and break. -/
def firstListValue : Dict → Option (List JVal)
  | [] => none
  | (_, v) :: rest =>
    match v with
    | .arr l => some l
    | _ => firstListValue rest

/-- The automatic working-data selection in `cc` (lines 281-294), used
when no jmespath query `q` is given: scan the response's fields in
declared order, select the first list-valued field, and afterwards, if
`data == []` (no list-valued field at all, or the selected list was
empty), fall back to the whole response as a single record. -/
def autoExtract (r : Dict) : JVal :=
  let data := (firstListValue r).getD []
  if data = [] then .obj r else .arr data

/-- The extraction rule exactly as claim C6 words it (spec-side
definition, for comparison with `autoExtract`): the value of the first
field whose value is a list; if no field holds a list value, the whole
raw response. -/
def claimedAutoExtract (r : Dict) : JVal :=
  match r.find? (fun kv => kv.2.isArr) with
  | some kv => kv.2
  | none => .obj r

/-- The amended extraction rule (spec-side definition): the first
list-valued field wins only when that list is non-empty; if there is no
list-valued field, or the first one is the empty list, the whole raw
response is the single record. -/
def amendedAutoExtract (r : Dict) : JVal :=
  match r.find? (fun kv => kv.2.isArr) with
  | some kv =>
    match kv.2 with
    | .arr l => if l = [] then .obj r else .arr l
    | _ => .obj r
  | none => .obj r

/-- `str.split(sep)` for a single-character separator (the join engine
splits on `'|'` and `'.'` only), written structurally over the character
list so that concrete runs reduce in the kernel. -/
def splitOnCharAux (c : Char) : List Char → List Char → List (List Char)
  | [], acc => [acc.reverse]
  | x :: xs, acc =>
    if x = c then acc.reverse :: splitOnCharAux c xs []
    else splitOnCharAux c xs (x :: acc)

def splitOnChar (c : Char) (s : String) : List String :=
  (splitOnCharAux c s.data []).map (fun l => String.mk l)

/-- `sep.join(parts)` for a single-character separator. -/
def joinWithChar (c : Char) : List String → String
  | [] => ""
  | [s] => s
  | s :: rest => s ++ String.singleton c ++ joinWithChar c rest

/-- `s.startswith(c)` for a single character. -/
def strStartsWithChar (c : Char) (s : String) : Bool :=
  match s.data with
  | [] => false
  | x :: _ => x = c

/-- jmespath lookup restricted to dotted identifier paths, the only form
the join engine's `join_attrs` use (`jq`, lines 216-218, with queries
like `pullRequestId` or `a.b`): a missing key or a non-dict intermediate
yields null (jmespath returns None there). -/
def jqDotted (query : String) (v : JVal) : JVal :=
  (splitOnChar '.' query).foldl (fun acc part =>
    match acc with
    | .obj fields => (dget part fields).getD .null
    | _ => .null) v

/-- One join specification `_j` (lines 313-319): the boto3 method, the
pipe-separated dotted source-attribute queries, and the optional static
extra kwargs (`_j[2]`, defaulting to the empty dict). -/
structure JoinSpec where
  method : String
  attrs : String
  extra : Dict := []

/-- The `store_root` flag (line 324): popped from the join's static
kwargs with default `join_idx > 0`; the later test is `store_root is
True`, so only the Python value True enables it. -/
def storeRootOf (joinIdx : Nat) (spec : JoinSpec) : Bool :=
  match dget "store_root" spec.extra with
  | some (.bool true) => true
  | some _ => false
  | none => decide (0 < joinIdx)

/-- Fail-fast effectful map.  `_join_data` runs the secondary calls with
`list(EX.map(...))` (lines 335-338): results are collected in submission
order and the first exception in that order aborts the whole join, which
is exactly sequential first-error propagation. -/
def mapE (f : α → Except CcErr β) : List α → Except CcErr (List β)
  | [] => .ok []
  | x :: xs =>
    match f x with
    | .error e => .error e
    | .ok y =>
      match mapE f xs with
      | .error e => .error e
      | .ok ys => .ok (y :: ys)

/-- Per-record body of the first loop of `_join_data` (lines 318-332):
copy the static kwargs, propagate the root call's `cache_secs` if given,
drop `store_root`, evaluate each dotted query against the record storing
the leaf value under the leaf attribute name, concatenate the values with
`'|'` into the join key (a `TypeError`, as raised by `str.join` on
non-string values, aborts), and store the key both on the root record and
in the call kwargs.  Returns (updated root record, secondary-call
kwargs). -/
def baseJoinKwargs (spec : JoinSpec) (rootCacheSecs : Option JVal) : Dict :=
  dpop "store_root" (match rootCacheSecs with
    | some cs => dset spec.extra "cache_secs" cs
    | none => spec.extra)

def joinQueryStep (spec : JoinSpec) (rootCacheSecs : Option JVal) (rec : Dict) :
    Dict × List JVal :=
  (splitOnChar '|' spec.attrs).foldl
    (fun (acc : Dict × List JVal) q =>
      let attr := (splitOnChar '.' q).getLastD ""
      let v := jqDotted q (.obj rec)
      (dset acc.1 attr v, acc.2 ++ [v])) (baseJoinKwargs spec rootCacheSecs, [])

/-- The Python value of a join-key part: `str.join` accepts only
strings. -/
def joinKeyStr : JVal → Except CcErr String
  | JVal.str s => Except.ok s
  | _ => Except.error (.typeError "sequence item: expected str instance")

def prepareRecord (spec : JoinSpec) (rootCacheSecs : Option JVal) (rec : Dict) :
    Except CcErr (Dict × Dict) :=
  let step := joinQueryStep spec rootCacheSecs rec
  match mapE joinKeyStr step.2 with
  | .error e => .error e
  | .ok parts =>
    let jk := joinWithChar '|' parts
    .ok (dset rec "_join_key" (.str jk), dset step.1 "_join_key" (.str jk))

/-- The secondary call as issued by `_join_data`: `ccapi` pops
`_join_key` from the kwargs before calling boto3 (line 229), strips
`ResponseMetadata` (line 260) and attaches the join key to the response
(lines 266-267).  The caching layer is abstracted into the `remote`
oracle; a `ClientError` becomes the fatal `RemoteCallFailed` (lines
258-259). -/
def ccapiForJoin (remote : String → Dict → Except String Dict)
    (method : String) (jd : Dict) : Except CcErr Dict :=
  let joinKey := dget "_join_key" jd
  match remote method (dpop "_join_key" jd) with
  | .error msg => .error (.remoteCallFailed method msg)
  | .ok r =>
    let r2 := dpop "ResponseMetadata" r
    .ok (match joinKey with
      | some v => dset r2 "_join_key" v
      | none => r2)

/-- Python dict keyed by (join-key) values: first-binding lookup,
replace-or-append set. -/
def vget (k : JVal) : List (JVal × JVal) → Option JVal
  | [] => none
  | (k', v) :: rest => if k' = k then some v else vget k rest

def vset (m : List (JVal × JVal)) (k v : JVal) : List (JVal × JVal) :=
  match m with
  | [] => [(k, v)]
  | (k', v') :: rest => if k' = k then (k, v) :: rest else (k', v') :: vset rest k v

/-- The lookup-building loop of `_join_data` (lines 341-346): for each
secondary response, key it by its attached `_join_key`; the stored
enrichment is the whole response when `store_root` is True, else the
value of its first non-reserved (not underscore-prefixed) field
(`d[entity_keys[0]]`, an `IndexError` when there is none). -/
def buildLookup (storeRoot : Bool) :
    List Dict → List (JVal × JVal) → Except CcErr (List (JVal × JVal))
  | [], acc => .ok acc
  | d :: rest, acc =>
    let entityKeys := (d.map Prod.fst).filter (fun k => !(strStartsWithChar '_' k))
    match (if storeRoot then Except.ok (JVal.obj d)
      else match entityKeys with
        | [] => Except.error CcErr.indexError
        | k :: _ => Except.ok ((dget k d).getD .null)) with
    | .error e => .error e
    | .ok v =>
      match dget "_join_key" d with
      | none => .error (.keyError "_join_key")
      | some jk => buildLookup storeRoot rest (vset acc jk v)

/-- The merge loop of `_join_data` (lines 347-348):
`data[i].update(lookup_data.get(data[i]['_join_key'], {}))`.  Updating
with a non-dict enrichment is modelled as a `TypeError` (Python raises on
any non-iterable-of-pairs value there). -/
def mergeRecord (lookup : List (JVal × JVal)) (rec : Dict) : Except CcErr Dict :=
  match dget "_join_key" rec with
  | none => .error (.keyError "_join_key")
  | some jk =>
    match (vget jk lookup).getD (.obj []) with
    | .obj fields => .ok (dupdate rec fields)
    | _ => .error (.typeError "update expects a mapping")

/-- `_join_data` (lines 313-348).  `store_root` is re-popped per record
from a fresh copy of the static kwargs, so it is the same value each
iteration; it is computed once here. -/
def joinData (joinIdx : Nat) (spec : JoinSpec) (rootCacheSecs : Option JVal)
    (data : List Dict) (remote : String → Dict → Except String Dict) :
    Except CcErr (List Dict) :=
  let storeRoot := storeRootOf joinIdx spec
  match mapE (prepareRecord spec rootCacheSecs) data with
  | .error e => .error e
  | .ok prepared =>
    let data2 := prepared.map Prod.fst
    let joinKwargs := prepared.map Prod.snd
    match mapE (ccapiForJoin remote spec.method) joinKwargs with
    | .error e => .error e
    | .ok joinResults =>
      match buildLookup storeRoot joinResults [] with
      | .error e => .error e
      | .ok lookup => mapE (mergeRecord lookup) data2

/-- The join loop of `cc` (lines 351-355): `for i in range(len(j)):
_join_data(i, j[i])`, threading the working data through. -/
def performJoinsFrom (startIdx : Nat) (rootCacheSecs : Option JVal)
    (remote : String → Dict → Except String Dict) :
    List JoinSpec → List Dict → Except CcErr (List Dict)
  | [], data => .ok data
  | spec :: rest, data =>
    match joinData startIdx spec rootCacheSecs data remote with
    | .error e => .error e
    | .ok d2 => performJoinsFrom (startIdx + 1) rootCacheSecs remote rest d2

def performJoins (specs : List JoinSpec) (rootCacheSecs : Option JVal)
    (data : List Dict) (remote : String → Dict → Except String Dict) :
    Except CcErr (List Dict) :=
  performJoinsFrom 0 rootCacheSecs remote specs data

-- Demo fixtures for the join claims ------------------------------------

def c1Spec : JoinSpec := ⟨"get_pull_request", "pullRequestId", []⟩

def c1Data : List Dict :=
  [[("pullRequestId", .str "1")], [("pullRequestId", .str "2")]]

def c1Remote : String → Dict → Except String Dict :=
  fun _ _ => .ok [("pullRequest", .obj [("title", .str "t")])]

def c1Out : List Dict :=
  match performJoins [c1Spec] none c1Data c1Remote with
  | .ok l => l
  | .error _ => []

def c2Spec : JoinSpec := ⟨"get_item", "k", [("store_root", .bool true)]⟩

def c2Data : List Dict := [[("k", .str "a")], [("k", .str "b")]]

def c2Remote : String → Dict → Except String Dict :=
  fun _ jd =>
    if dget "k" jd = some (.str "a") then .ok [("k", .str "a"), ("v", .int 1)]
    else .ok []

def c3Spec : JoinSpec := ⟨"getDetail", "id", []⟩

def c3Data : List Dict := [[("id", .str "1")], [("id", .str "2")]]

def c3Remote : String → Dict → Except String Dict :=
  fun _ jd =>
    if dget "id" jd = some (.str "2") then .error "AccessDenied"
    else .ok [("detail", .obj [("title", .str "A")])]

def c3Prepared : List (Dict × Dict) :=
  match mapE (prepareRecord c3Spec none) c3Data with
  | .ok p => p
  | .error _ => []

def c9Spec : JoinSpec := ⟨"get_detail", "k", []⟩

def c9Data : List Dict := [[("k", .str "a")]]

def c9Remote : String → Dict → Except String Dict :=
  fun _ _ => .ok [("item", .obj [("v", .int 1)])]

/-- A line of text. -/
abbrev Line := List Char

/-- All indices at which `x` occurs in `b`, ascending (`b2j` before
purging). -/
def occurrences [DecidableEq α] (b : List α) (x : α) : List Nat :=
  (List.range b.length).filter (fun j => decide (b.get? j = some x))

/-- `self.bjunk.__contains__`: the isjunk-based junk set.  Python
restricts it to elements occurring in `b`, but it is only ever queried on
elements of `b`, so applying the predicate directly is equivalent. -/
def bjunkF {α : Type} (isjunk : Option (α → Bool)) : α → Bool :=
  fun x =>
    match isjunk with
    | none => false
    | some f => f x

/-- The autojunk rule: with `autojunk` on and `len(b) >= 200`, a non-junk
element occurring more than `len(b) // 100 + 1` times is popular and is
purged from `b2j`. -/
def isPopular [DecidableEq α] (b : List α) (isjunk : Option (α → Bool)) (x : α) : Bool :=
  decide (200 ≤ b.length) && !(bjunkF isjunk x) &&
    decide (b.length / 100 + 1 < (occurrences b x).length)

/-- `b2j` after junk and popular purging (autojunk is True throughout the
code under study). -/
def b2jF [DecidableEq α] (b : List α) (isjunk : Option (α → Bool)) (x : α) : List Nat :=
  if bjunkF isjunk x || isPopular b isjunk x then [] else occurrences b x

/-- Inner loop of `find_longest_match`: walk the occurrence list of
`a[i]` (ascending), with `continue` below `blo` and `break` at `bhi`;
`newj2len[j] = j2len.get(j-1, 0) + 1`, and a strictly larger `k` moves
the best block to `(i-k+1, j-k+1, k)`. -/
def flmInner (blo bhi i : Nat) (old : Nat → Nat) :
    List Nat → (Nat → Nat) → Nat × Nat × Nat → ((Nat → Nat) × (Nat × Nat × Nat))
  | [], nj, best => (nj, best)
  | j :: rest, nj, best =>
    if j < blo then flmInner blo bhi i old rest nj best
    else if bhi ≤ j then (nj, best)
    else
      let k := (if j = 0 then 0 else old (j - 1)) + 1
      let nj2 : Nat → Nat := fun j' => if j' = j then k else nj j'
      let best2 := if best.2.2 < k then (i + 1 - k, j + 1 - k, k) else best
      flmInner blo bhi i old rest nj2 best2

/-- Outer loop of `find_longest_match` over `i in range(alo, ahi)`; the
`j2len` dict is rebuilt from scratch each iteration. -/
def flmOuter [DecidableEq α] (a : List α) (b2jf : α → List Nat) (blo bhi : Nat) :
    List Nat → (Nat → Nat) → (Nat × Nat × Nat) → (Nat × Nat × Nat)
  | [], _, best => best
  | i :: rest, old, best =>
    match a.get? i with
    | none => best
    | some ai =>
      let r := flmInner blo bhi i old (b2jf ai) (fun _ => 0) best
      flmOuter a b2jf blo bhi rest r.1 r.2

/-- The two downward extension loops of `find_longest_match` (non-junk
when `wantJunk` is false, junk otherwise): structural recursion on
`besti`, which falls by one each iteration. -/
def extLower [DecidableEq α] (a b : List α) (alo blo : Nat) (junk : α → Bool)
    (wantJunk : Bool) : Nat → Nat → Nat → Nat × Nat × Nat
  | 0, bestj, bestsize => (0, bestj, bestsize)
  | besti + 1, bestj, bestsize =>
    let cond := decide (alo < besti + 1) && decide (blo < bestj) &&
      (match b.get? (bestj - 1), a.get? besti with
       | some bx, some ax =>
         (if wantJunk then junk bx else !(junk bx)) && decide (ax = bx)
       | _, _ => false)
    if cond then extLower a b alo blo junk wantJunk besti (bestj - 1) (bestsize + 1)
    else (besti + 1, bestj, bestsize)

/-- The two upward extension loops: fuel is `ahi - (besti + bestsize)`,
which is exactly the bound at which the first loop condition fails, so
the fuel never runs out before the loop would stop. -/
def extUpper [DecidableEq α] (a b : List α) (ahi bhi besti bestj : Nat) (junk : α → Bool)
    (wantJunk : Bool) : Nat → Nat → Nat
  | 0, bestsize => bestsize
  | fuel + 1, bestsize =>
    let cond := decide (besti + bestsize < ahi) && decide (bestj + bestsize < bhi) &&
      (match b.get? (bestj + bestsize), a.get? (besti + bestsize) with
       | some bx, some ax =>
         (if wantJunk then junk bx else !(junk bx)) && decide (ax = bx)
       | _, _ => false)
    if cond then extUpper a b ahi bhi besti bestj junk wantJunk fuel (bestsize + 1)
    else bestsize

/-- `find_longest_match(alo, ahi, blo, bhi)`. -/
def findLongestMatch [DecidableEq α] (a b : List α) (b2jf : α → List Nat)
    (junk : α → Bool) (alo ahi blo bhi : Nat) : Nat × Nat × Nat :=
  let dp := flmOuter a b2jf blo bhi (List.range' alo (ahi - alo)) (fun _ => 0) (alo, blo, 0)
  let e1 := extLower a b alo blo junk false dp.1 dp.2.1 dp.2.2
  let s2 := extUpper a b ahi bhi e1.1 e1.2.1 junk false (ahi - (e1.1 + e1.2.2)) e1.2.2
  let e3 := extLower a b alo blo junk true e1.1 e1.2.1 s2
  let s4 := extUpper a b ahi bhi e3.1 e3.2.1 junk true (ahi - (e3.1 + e3.2.2)) e3.2.2
  (e3.1, e3.2.1, s4)

/-- Recursive block gathering of `get_matching_blocks`.  CPython uses an
explicit queue and sorts afterwards; emitting left-recursion blocks, then
the found block, then right-recursion blocks produces the same sorted
list directly, because all left blocks start before `i` and all right
blocks after `i + k`. -/
def matchingBlocksAux [DecidableEq α] (a b : List α) (b2jf : α → List Nat)
    (junk : α → Bool) : Nat → Nat → Nat → Nat → Nat → List (Nat × Nat × Nat)
  | 0, _, _, _, _ => []
  | fuel + 1, alo, ahi, blo, bhi =>
    let x := findLongestMatch a b b2jf junk alo ahi blo bhi
    if x.2.2 = 0 then []
    else
      (if alo < x.1 && blo < x.2.1 then
        matchingBlocksAux a b b2jf junk fuel alo x.1 blo x.2.1 else []) ++
      [x] ++
      (if x.1 + x.2.2 < ahi && x.2.1 + x.2.2 < bhi then
        matchingBlocksAux a b b2jf junk fuel (x.1 + x.2.2) ahi (x.2.1 + x.2.2) bhi else [])

/-- The adjacent-block collapsing loop of `get_matching_blocks`. -/
def collapseBlocks : (Nat × Nat × Nat) → List (Nat × Nat × Nat) → List (Nat × Nat × Nat)
  | (i1, j1, k1), [] => if k1 ≠ 0 then [(i1, j1, k1)] else []
  | (i1, j1, k1), (i2, j2, k2) :: rest =>
    if i1 + k1 = i2 ∧ j1 + k1 = j2 then collapseBlocks (i1, j1, k1 + k2) rest
    else (if k1 ≠ 0 then [(i1, j1, k1)] else []) ++ collapseBlocks (i2, j2, k2) rest

/-- `get_matching_blocks()`, terminator `(la, lb, 0)` included. -/
def getMatchingBlocks [DecidableEq α] (isjunk : Option (α → Bool)) (a b : List α) :
    List (Nat × Nat × Nat) :=
  let blocks := matchingBlocksAux a b (b2jF b isjunk) (bjunkF isjunk)
    (a.length + 1) 0 a.length 0 b.length
  collapseBlocks (0, 0, 0) blocks ++ [(a.length, b.length, 0)]

inductive OpTag where
  | replace
  | delete
  | insert
  | equal
deriving DecidableEq

/-- The opcode-building loop of `get_opcodes()`. -/
def opcodesFromBlocks : Nat → Nat → List (Nat × Nat × Nat) →
    List (OpTag × Nat × Nat × Nat × Nat)
  | _, _, [] => []
  | i, j, (ai, bj, size) :: rest =>
    (if i < ai ∧ j < bj then [(.replace, i, ai, j, bj)]
     else if i < ai then [(.delete, i, ai, j, bj)]
     else if j < bj then [(.insert, i, ai, j, bj)]
     else []) ++
    (if size ≠ 0 then [(.equal, ai, ai + size, bj, bj + size)] else []) ++
    opcodesFromBlocks (ai + size) (bj + size) rest

def getOpcodes [DecidableEq α] (isjunk : Option (α → Bool)) (a b : List α) :
    List (OpTag × Nat × Nat × Nat × Nat) :=
  opcodesFromBlocks 0 0 (getMatchingBlocks isjunk a b)

/-- `ratio()` as an exact rational `(2 * matches, len(a) + len(b))`;
`_calculate_ratio` returns 1.0 for two empty sequences.  All ratio
comparisons in `difflib` are between such rationals (or the literals 0.74
and 0.75) whose values are far enough apart that IEEE doubles order them
identically, so exact comparison is faithful. -/
def smRatioPair [DecidableEq α] (isjunk : Option (α → Bool)) (a b : List α) :
    Nat × Nat :=
  let m := ((getMatchingBlocks isjunk a b).map (fun t => t.2.2)).sum
  if a.length + b.length = 0 then (1, 1) else (2 * m, a.length + b.length)

/-- value(p) > value(q) on nonneg rationals with positive denominators. -/
def ratGt (p q : Nat × Nat) : Bool := decide (q.1 * p.2 < p.1 * q.2)

/-- value(p) < value(q). -/
def ratLt (p q : Nat × Nat) : Bool := decide (p.1 * q.2 < q.1 * p.2)

-- ======================================================================
-- difflib: Differ (ndiff) embedding
-- ======================================================================

/-- `IS_CHARACTER_JUNK`: blank or tab. -/
def charJunkF (c : Char) : Bool := decide (c = ' ') || decide (c = '\t')

/-- Python `str.isspace()` on the characters that can occur here. -/
def pyIsSpaceChar (c : Char) : Bool :=
  decide (c = ' ') || decide (c = '\t') || decide (c = '\n') || decide (c = '\r')
    || decide (c = Char.ofNat 11) || decide (c = Char.ofNat 12)

def NULC : Char := Char.ofNat 0

def SOHC : Char := Char.ofNat 1

/-- `Differ._dump`: one `'%s %s' % (tag, x[i])` line per index. -/
def differDump (tag : Char) (x : List Line) (lo hi : Nat) : List Line :=
  (List.range' lo (hi - lo)).map (fun i => tag :: ' ' :: ((x.get? i).getD []))

/-- `Differ._plain_replace`: dump the shorter block first. -/
def plainReplace (a : List Line) (alo ahi : Nat) (b : List Line) (blo bhi : Nat) :
    List Line :=
  if bhi - blo < ahi - alo then differDump '+' b blo bhi ++ differDump '-' a alo ahi
  else differDump '-' a alo ahi ++ differDump '+' b blo bhi

/-- The intraline tag strings built in `_fancy_replace` from the
character-level opcodes of the synch pair. -/
def intralineTags (aelt belt : Line) : List Char × List Char :=
  (getOpcodes (some charJunkF) aelt belt).foldl
    (fun (acc : List Char × List Char) op =>
      match op with
      | (tag, i1, i2, j1, j2) =>
        let la := i2 - i1
        let lb := j2 - j1
        match tag with
        | .replace => (acc.1 ++ List.replicate la '^', acc.2 ++ List.replicate lb '^')
        | .delete => (acc.1 ++ List.replicate la '-', acc.2)
        | .insert => (acc.1, acc.2 ++ List.replicate lb '+')
        | .equal => (acc.1 ++ List.replicate la ' ', acc.2 ++ List.replicate lb ' '))
    ([], [])

/-- `_keep_original_ws`: `zip` truncates to the shorter operand. -/
def keepOriginalWs (s tags : List Char) : List Char :=
  (s.zip tags).map (fun ct => if ct.2 = ' ' && pyIsSpaceChar ct.1 then ct.1 else ct.2)

/-- `str.rstrip()`. -/
def rstripChars (l : List Char) : List Char :=
  (l.reverse.dropWhile pyIsSpaceChar).reverse

/-- `Differ._qformat`: the `- aline / ? atags / + bline / ? btags` quad,
with each `?` line kept only when its rstripped tags are non-empty; the
`?` lines carry a trailing newline. -/
def qformatOut (aline bline : Line) (atags btags : List Char) : List Line :=
  let at2 := rstripChars (keepOriginalWs aline atags)
  let bt2 := rstripChars (keepOriginalWs bline btags)
  ['-' :: ' ' :: aline] ++
  (if at2 ≠ [] then ['?' :: ' ' :: (at2 ++ ['\n'])] else []) ++
  ['+' :: ' ' :: bline] ++
  (if bt2 ≠ [] then ['?' :: ' ' :: (bt2 ++ ['\n'])] else [])

/-- The double scan of `_fancy_replace` (outer `j`, inner `i`): record
the first identical pair, and the best non-identical pair by ratio with
`best_ratio` starting at 0.74.  The `real_quick_ratio`/`quick_ratio`
guards are upper bounds of `ratio` and have no semantic effect, so only
`ratio` is computed.  Returns (best_ratio, best pair, identical pair). -/
def frScan (a b : List Line) (alo ahi blo bhi : Nat) :
    (Nat × Nat) × Option (Nat × Nat) × Option (Nat × Nat) :=
  (List.range' blo (bhi - blo)).foldl (fun st j =>
    (List.range' alo (ahi - alo)).foldl (fun (st : (Nat × Nat) × Option (Nat × Nat) × Option (Nat × Nat)) i =>
      match a.get? i, b.get? j with
      | some ai, some bj =>
        if ai = bj then
          match st.2.2 with
          | none => (st.1, st.2.1, some (i, j))
          | some _ => st
        else
          let r := smRatioPair (some charJunkF) ai bj
          if ratGt r st.1 then (r, some (i, j), st.2.2) else st
      | _, _ => st) st) ((37, 50), none, none)

/-- `Differ._fancy_replace` / `Differ._fancy_helper`, merged into one
fuel-indexed function so the recursion is structural (mode `true` is
`_fancy_helper`, mode `false` is `_fancy_replace`).

`_fancy_replace`: `best_ratio < cutoff` with no identical pair falls back
to `_plain_replace`; with an identical pair it synchs on it and emits a
plain context line; otherwise it synchs on the best pair and emits the
intraline-marked quad.  Every nested call strictly shrinks the `a` range,
so the generous fuel used by `differCompare` never runs out. -/
def fancyGo : Nat → Bool → List Line → Nat → Nat → List Line → Nat → Nat → List Line
  | 0, _, _, _, _, _, _, _ => []
  | fuel + 1, true, a, alo, ahi, b, blo, bhi =>
    if alo < ahi then
      if blo < bhi then fancyGo fuel false a alo ahi b blo bhi
      else differDump '-' a alo ahi
    else if blo < bhi then differDump '+' b blo bhi
    else []
  | fuel + 1, false, a, alo, ahi, b, blo, bhi =>
    let scan := frScan a b alo ahi blo bhi
    if ratLt scan.1 (3, 4) then
      match scan.2.2 with
      | none => plainReplace a alo ahi b blo bhi
      | some (eqi, eqj) =>
        fancyGo fuel true a alo eqi b blo eqj
          ++ [' ' :: ' ' :: ((a.get? eqi).getD [])]
          ++ fancyGo fuel true a (eqi + 1) ahi b (eqj + 1) bhi
    else
      match scan.2.1 with
      | none => []
      | some (bi, bj) =>
        let aelt := (a.get? bi).getD []
        let belt := (b.get? bj).getD []
        let tags := intralineTags aelt belt
        fancyGo fuel true a alo bi b blo bj
          ++ qformatOut aelt belt tags.1 tags.2
          ++ fancyGo fuel true a (bi + 1) ahi b (bj + 1) bhi

def fancyReplace (fuel : Nat) (a : List Line) (alo ahi : Nat)
    (b : List Line) (blo bhi : Nat) : List Line :=
  fancyGo fuel false a alo ahi b blo bhi

/-- `Differ(linejunk=None, charjunk=IS_CHARACTER_JUNK).compare(a, b)`,
i.e. `ndiff` with its default junk settings, as used by `_mdiff`. -/
def differCompare (a b : List Line) : List Line :=
  (getOpcodes (none : Option (Line → Bool)) a b).flatMap (fun op =>
    match op with
    | (.replace, alo, ahi, blo, bhi) =>
      fancyReplace (2 * (a.length + b.length) + 4) a alo ahi b blo bhi
    | (.delete, alo, ahi, _, _) => differDump '-' a alo ahi
    | (.insert, _, _, blo, bhi) => differDump '+' b blo bhi
    | (.equal, alo, ahi, _, _) => differDump ' ' a alo ahi)

-- ======================================================================
-- difflib: _mdiff embedding
-- ======================================================================

/-- A line number as `_mdiff` produces it: an integer, or `''` (none)
for the blank side of an insertion/deletion. -/
abbrev LC := Option Nat

/-- One yield of `_mdiff`'s `_line_iterator`: optional from side,
optional to side, change flag. -/
abbrev LineItem := Option (LC × Line) × Option (LC × Line) × Bool

/-- Maximal runs of `+`, `-` or `^` in a marker line, with their spans:
the matches of `change_re = (\++|\-+|\^+)` in order. -/
def runSpansAux : List Char → Nat → Option (Char × Nat × Nat) → List (Char × Nat × Nat)
  | [], _, cur =>
    (match cur with
     | some s => [s]
     | none => [])
  | c :: rest, pos, cur =>
    if c = '+' ∨ c = '-' ∨ c = '^' then
      match cur with
      | some (rc, b, e) =>
        if rc = c then runSpansAux rest (pos + 1) (some (rc, b, e + 1))
        else (rc, b, e) :: runSpansAux rest (pos + 1) (some (c, pos, pos + 1))
      | none => runSpansAux rest (pos + 1) (some (c, pos, pos + 1))
    else
      match cur with
      | some s => s :: runSpansAux rest (pos + 1) none
      | none => runSpansAux rest (pos + 1) none

def runSpans (markers : List Char) : List (Char × Nat × Nat) :=
  runSpansAux markers 0 none

/-- Insert `\0<kind> ... \1` around each marker span of the text, as the
reversed-order insertion loop of `_make_line` does (spans are disjoint
and ordered, so ordered reconstruction is equivalent). -/
def insertMarksAux : Nat → List Char → List (Char × Nat × Nat) → List Char
  | _, t, [] => t
  | pos, t, (c, b, e) :: rest =>
    t.take (b - pos) ++ [NULC, c] ++ (t.drop (b - pos)).take (e - b) ++ [SOHC]
      ++ insertMarksAux e (t.drop (e - pos)) rest

/-- `_make_line` with format key `'?'` before the final `text[2:]`. -/
def markIntraline (text markers : List Char) : List Char :=
  (insertMarksAux 0 text (runSpans markers)).drop 2

/-- `_make_line` with format key `'+'` or `'-'`: strip the two-character
prefix, replace an empty text by a single blank, and wrap the whole line
in `\0<key> ... \1`. -/
def markedUp (fmtKey : Char) (text : Line) : Line :=
  let t := text.drop 2
  let t2 := if t = [] then [' '] else t
  NULC :: fmtKey :: (t2 ++ [SOHC])

/-- The blank-line catch-up loops of `_line_iterator`: a negative count
yields `(None, ('','\n'), True)` items, a positive count the mirror
image. -/
def flushBlanks (n : Int) : List LineItem :=
  if n < 0 then List.replicate (-n).toNat (none, some ((none : LC), ['\n']), true)
  else List.replicate n.toNat (some ((none : LC), ['\n']), none, true)

/-- First character of the i-th buffered line, with the `'X'` sentinel
for an exhausted iterator (ndiff lines are never empty, so `headD` only
pads the sentinel). -/
def windowChar (rem : List Line) (i : Nat) : Char :=
  match rem.get? i with
  | some l => l.headD 'X'
  | none => 'X'

/-- `_mdiff`'s `_line_iterator` as a state machine over the remaining
ndiff lines.  The four-line look-ahead window is the list head (the
buffer refill preserves order, so buffer plus iterator is just the
remaining list); `nf`/`nt` are the from/to line counters of `_make_line`
and `pending` is `num_blanks_pending`.  Fuel is structural; every
non-final step consumes at least one line, so `rem.length + 2` suffices. -/
def lineIterator : Nat → List Line → Nat → Nat → Int → List LineItem
  | 0, _, _, _, _ => []
  | fuel + 1, rem, nf, nt, pending =>
    let l0 := (rem.get? 0).getD []
    let l1 := (rem.get? 1).getD []
    let l2 := (rem.get? 2).getD []
    let c0 := windowChar rem 0
    let c1 := windowChar rem 1
    let c2 := windowChar rem 2
    let c3 := windowChar rem 3
    if c0 = 'X' then
      flushBlanks pending
    else if c0 = '-' ∧ c1 = '?' ∧ c2 = '+' ∧ c3 = '?' then
      (some (some (nf + 1), markIntraline l0 l1),
       some (some (nt + 1), markIntraline l2 ((rem.get? 3).getD [])), true)
        :: lineIterator fuel (rem.drop 4) (nf + 1) (nt + 1) pending
    else if c0 = '-' ∧ c1 = '-' ∧ c2 = '+' ∧ c3 = '+' then
      (some (some (nf + 1), markedUp '-' l0), none, true)
        :: lineIterator fuel (rem.drop 1) (nf + 1) nt (pending - 1)
    else if (c0 = '-' ∧ c1 = '-' ∧ c2 = '?' ∧ c3 = '+') ∨
        (c0 = '-' ∧ c1 = '-' ∧ c2 = '+') ∨ (c0 = '-' ∧ c1 = ' ') then
      flushBlanks (pending - 1) ++
        ((some (some (nf + 1), markedUp '-' l0), none, true)
          :: lineIterator fuel (rem.drop 1) (nf + 1) nt 0)
    else if c0 = '-' ∧ c1 = '+' ∧ c2 = '?' then
      (some (some (nf + 1), l0.drop 2), some (some (nt + 1), markIntraline l1 l2), true)
        :: lineIterator fuel (rem.drop 3) (nf + 1) (nt + 1) pending
    else if c0 = '-' ∧ c1 = '?' ∧ c2 = '+' then
      (some (some (nf + 1), markIntraline l0 l1), some (some (nt + 1), l2.drop 2), true)
        :: lineIterator fuel (rem.drop 3) (nf + 1) (nt + 1) pending
    else if c0 = '-' then
      (some (some (nf + 1), markedUp '-' l0), none, true)
        :: lineIterator fuel (rem.drop 1) (nf + 1) nt (pending - 1)
    else if c0 = '+' ∧ c1 = '-' ∧ c2 = '-' then
      (none, some (some (nt + 1), markedUp '+' l0), true)
        :: lineIterator fuel (rem.drop 1) nf (nt + 1) (pending + 1)
    else if c0 = '+' ∧ (c1 = ' ' ∨ c1 = '-') then
      flushBlanks (pending + 1) ++
        ((none, some (some (nt + 1), markedUp '+' l0), true)
          :: lineIterator fuel (rem.drop 1) nf (nt + 1) 0)
    else if c0 = '+' then
      (none, some (some (nt + 1), markedUp '+' l0), true)
        :: lineIterator fuel (rem.drop 1) nf (nt + 1) (pending + 1)
    else if c0 = ' ' then
      (some (some (nf + 1), l0.drop 2), some (some (nt + 1), l0.drop 2), false)
        :: lineIterator fuel (rem.drop 1) (nf + 1) (nt + 1) pending
    else
      []

/-- A context row of `_mdiff` output: from side, to side, change flag. -/
abbrev MPair := (LC × Line) × (LC × Line) × Bool

/-- `_mdiff`'s `_line_pair_iterator`: collect one-sided lines into the
from/to queues until both are non-empty, then emit the front pair with
the or of the two flags; leftover one-sided lines at exhaustion are
dropped (the Python generator returns on StopIteration). -/
def pairIterator : Nat → List LineItem → List ((LC × Line) × Bool) →
    List ((LC × Line) × Bool) → List MPair
  | 0, _, _, _ => []
  | fuel + 1, items, fq, tq =>
    match fq, tq with
    | f :: fs, t :: ts => (f.1, t.1, f.2 || t.2) :: pairIterator fuel items fs ts
    | _, _ =>
      match items with
      | [] => []
      | (fo, tO, flag) :: rest =>
        let fq2 := fq ++ (match fo with
          | some f => [(f, flag)]
          | none => [])
        let tq2 := tq ++ (match tO with
          | some t => [(t, flag)]
          | none => [])
        pairIterator fuel rest fq2 tq2

/-- One row of the context-mode `_mdiff` output. -/
inductive MRow where
  | sep
  | item (f t : LC × Line) (changed : Bool)
deriving DecidableEq

def toMRow (p : MPair) : MRow := .item p.1 p.2.1 p.2.2

/-- The collect-until-difference loop of the context branch: consumed
prefix (difference included) and remainder, or none when the iterator is
exhausted first (which makes `_mdiff` return). -/
def collectUntilDiff : List MPair → Option (List MPair × List MPair)
  | [] => none
  | p :: rest =>
    if p.2.2 then some ([p], rest)
    else
      match collectUntilDiff rest with
      | none => none
      | some (c, r) => some (p :: c, r)

/-- The after-change context loop: consume while `lines_to_write` is
positive, resetting it to `context - 1` at each further difference. -/
def afterContext (ctxm1 : Nat) : Nat → List MPair → (List MPair × List MPair)
  | _, [] => ([], [])
  | ltw, p :: rest =>
    if ltw = 0 then ([], p :: rest)
    else
      let ltw2 := if p.2.2 then ctxm1 else ltw - 1
      let r := afterContext ctxm1 ltw2 rest
      (p :: r.1, r.2)

/-- The context-mode grouping loop of `_mdiff` (with `context` already
incremented by one): before each difference keep at most `ctx` collected
rows, preceded by a separator when rows were elided; then stream up to
`ctx - 1` rows of trailing context, extending at further differences. -/
def grouper (ctx : Nat) : Nat → List MPair → List MRow
  | 0, _ => []
  | fuel + 1, pairs =>
    match collectUntilDiff pairs with
    | none => []
    | some (c, rest) =>
      let front := if ctx < c.length then MRow.sep :: (c.drop (c.length - ctx)).map toMRow
        else c.map toMRow
      let ar := afterContext (ctx - 1) (ctx - 1) rest
      front ++ ar.1.map toMRow ++ grouper ctx fuel ar.2

/-- `difflib._mdiff(fromlines, tolines, context=3)` with the default junk
arguments, as `print_diff` calls it (line 380-382). -/
def mdiffContext3 (fromLines toLines : List Line) : List MRow :=
  let delta := differCompare fromLines toLines
  let items := lineIterator (delta.length + 2) delta 0 0 0
  let pairs := pairIterator (2 * items.length + 2) items [] []
  grouper 4 (pairs.length + 1) pairs

-- ======================================================================
-- print_diff (lines 363-434)
-- ======================================================================

/-- `str.splitlines()` for the newline conventions that can occur here
(`\n`, `\r\n`, `\r`). -/
def splitLinesAux : List Char → List Char → List Line
  | [], acc => if acc = [] then [] else [acc.reverse]
  | '\r' :: '\n' :: rest, acc => acc.reverse :: splitLinesAux rest []
  | '\r' :: rest, acc => acc.reverse :: splitLinesAux rest []
  | '\n' :: rest, acc => acc.reverse :: splitLinesAux rest []
  | c :: rest, acc => splitLinesAux rest (c :: acc)

def splitLines (t : List Char) : List Line := splitLinesAux t []

/-- `line.lstrip().rstrip()` (line 377/379). -/
def stripLine (l : Line) : Line :=
  ((l.dropWhile pyIsSpaceChar).reverse.dropWhile pyIsSpaceChar).reverse

/-- `leading(line)` (lines 384-391): the leading blank/tab prefix of the
original line. -/
def leadingOf (l : Line) : Line :=
  l.takeWhile (fun c => decide (c = ' ') || decide (c = '\t'))

/-- `str.replace(sub, '')` for a two-character substring, scanning left
to right without overlap. -/
def removeSub2 (a b : Char) : List Char → List Char
  | [] => []
  | [x] => [x]
  | x :: y :: rest =>
    if x = a ∧ y = b then removeSub2 a b rest
    else x :: removeSub2 a b (y :: rest)

/-- The mark-stripping loop of `print_line` (lines 400-403): drop every
`\0^`, `\0+`, `\0-` pair, then every `\1`. -/
def stripMarks (l : Line) : Line :=
  (removeSub2 NULC '-' (removeSub2 NULC '+' (removeSub2 NULC '^' l))).filter
    (fun c => !(decide (c = SOHC)))

/-- One printed row of `print_diff`: the change code, the two line-number
columns (none prints as blank) and the rendered text. -/
structure DiffRow where
  code : Char
  fromLc : LC
  toLc : LC
  text : Line
deriving DecidableEq

/-- A printed row or the `Rule` separator printed for an elision gap. -/
inductive OutRow where
  | rule
  | row (r : DiffRow)
deriving DecidableEq

/-- `print_diff(from_txt, to_txt)` (lines 363-434), comments overlay
absent (the claims under study pass none): split both texts, strip each
line, run `_mdiff(..., context=3)` over the stripped copies, then for
every aligned row restore the original leading whitespace from the
unstripped line of that side and classify: blank from-number prints an
added row, blank to-number a removed row, a changed pair one removed and
one added row, an unchanged pair a context row. -/
def printDiffRows (fromTxt toTxt : List Char) : List OutRow :=
  let fromLines := splitLines fromTxt
  let toLines := splitLines toTxt
  let diff := mdiffContext3 (fromLines.map stripLine) (toLines.map stripLine)
  diff.flatMap (fun r =>
    match r with
    | .sep => [OutRow.rule]
    | .item (flc, ftext) (tlc, ttext) changed =>
      let fline := match flc with
        | some n => leadingOf ((fromLines.get? (n - 1)).getD []) ++ ftext
        | none => ftext
      let tline := match tlc with
        | some n => leadingOf ((toLines.get? (n - 1)).getD []) ++ ttext
        | none => ttext
      match flc with
      | none => [.row ⟨'+', flc, tlc, stripMarks tline⟩]
      | some nf =>
        match tlc with
        | none => [.row ⟨'-', flc, tlc, stripMarks fline⟩]
        | some nt =>
          if changed then
            [.row ⟨'-', some nf, none, stripMarks fline⟩,
             .row ⟨'+', none, some nt, stripMarks tline⟩]
          else [.row ⟨' ', some nf, some nt, stripMarks tline⟩])

/-- The marks of a printed row: change code and the two line-number
columns, the shape claims C7 and C8 speak about. -/
def rowMarks (r : OutRow) : Char × LC × LC :=
  match r with
  | .rule => ('R', none, none)
  | .row d => (d.code, d.fromLc, d.toLc)

/-- The C7 input texts. -/
def c7From : List Char := "line1\nline2\nline3".data

def c7To : List Char := "line1\nliNe2\nline4\nline5".data

/-- Position j of `a` is eligible when it survives into `b2j`
(i.e. `a[j]` exists and was not purged as popular). -/
def eligB {α : Type} [DecidableEq α] (a : List α) (j : Nat) : Bool :=
  match a.get? j with
  | some x => decide (j ∈ b2jF a none x)
  | none => false

/-- Length of the maximal run of eligible positions ending at `m` (the
value the diagonal j2len entry carries in the self-comparison). -/
def diagRun {α : Type} [DecidableEq α] (a : List α) : Nat → Nat
  | 0 => if eligB a 0 then 1 else 0
  | m + 1 => if eligB a (m + 1) then diagRun a m + 1 else 0

/-- Upper bound on all j2len entries before processing outer index i. -/
def runEnd {α : Type} [DecidableEq α] (a : List α) : Nat → Nat
  | 0 => 0
  | m + 1 => diagRun a m

/-- Invariant delivered by one pass of the inner j2len loop in the
self-comparison: the best block stays diagonal with end within the
processed range, every stored run length is bounded by the diagonal runs,
and the diagonal entry is exact. -/
def InnerInv {α : Type} [DecidableEq α] (a : List α) (i : Nat)
    (r : (Nat → Nat) × (Nat × Nat × Nat)) : Prop :=
  r.2.1 = r.2.2.1 ∧ r.2.1 + r.2.2.2 ≤ i + 1 ∧
  (∀ m, m < i + 1 → diagRun a m ≤ r.2.2.2) ∧
  (∀ j, r.1 j ≤ diagRun a i) ∧ (∀ j, r.1 j ≤ diagRun a j) ∧
  r.1 i = diagRun a i

/-- C8 counterexample input: a two-line text. -/
def c8Text : List Char := "line1\nline2".data

-- Basic dict lemmas -----------------------------------------------------

theorem dget_dset_self (d : Dict) (k : String) (v : JVal) :
    dget k (dset d k v) = some v := by
  induction d with
  | nil => simp [dget, dset]
  | cons kv rest ih =>
    by_cases h : kv.1 = k <;> simp [dget, dset, h, ih]

theorem dget_dset_ne (d : Dict) (k k' : String) (v : JVal) (h : k' ≠ k) :
    dget k (dset d k' v) = dget k d := by
  induction d with
  | nil => simp [dget, dset, h]
  | cons kv rest ih =>
    by_cases hk : kv.1 = k'
    · have hne : kv.1 ≠ k := by rw [hk]; exact h
      simp [dget, dset, hk, h, hne]
    · by_cases hk2 : kv.1 = k <;> simp [dget, dset, hk, hk2, ih, Ne.symm h]

theorem dget_dset_isSome (d : Dict) (k k' : String) (v : JVal)
    (h : (dget k d).isSome) : (dget k (dset d k' v)).isSome := by
  by_cases hk : k' = k
  · subst hk; simp [dget_dset_self]
  · rw [dget_dset_ne d k k' v hk]; exact h

theorem dget_dupdate_isSome (d : Dict) (other : Dict) (k : String)
    (h : (dget k d).isSome) : (dget k (dupdate d other)).isSome := by
  unfold dupdate
  induction other generalizing d with
  | nil => simpa using h
  | cons kv rest ih =>
    simp only [List.foldl_cons]
    exact ih (dset d kv.1 kv.2) (dget_dset_isSome d k kv.1 kv.2 h)

-- ======================================================================
-- ccapi: the TTL response cache (src/ccpr/__init__.py lines 221-268)
-- ======================================================================

-- Cache lemmas ----------------------------------------------------------

theorem findEntry_eq_none_iff (name : String) (s : List CacheEntry) :
    findEntry name s = none ↔ ∀ e ∈ s, e.name ≠ name := by
  induction s with
  | nil => simp [findEntry]
  | cons e rest ih =>
    by_cases h : e.name = name <;> simp [findEntry, h, ih]

theorem writeEntry_of_absent (name : String) (mtime : Int) (content : Dict)
    (s : List CacheEntry) (h : findEntry name s = none) :
    writeEntry name mtime content s = s ++ [⟨name, mtime, content⟩] := by
  induction s with
  | nil => simp [writeEntry]
  | cons e rest ih =>
    rw [findEntry_eq_none_iff] at h
    have he : e.name ≠ name := h e (by simp)
    have hrest : findEntry name rest = none := by
      rw [findEntry_eq_none_iff]; exact fun x hx => h x (by simp [hx])
    simp [writeEntry, he, ih hrest]

theorem findEntry_append_of_absent (name : String) (s : List CacheEntry)
    (e : CacheEntry) (h : findEntry name s = none) :
    findEntry name (s ++ [e]) = if e.name = name then some e else none := by
  induction s with
  | nil => simp [findEntry]
  | cons x rest ih =>
    rw [findEntry_eq_none_iff] at h
    have hx : x.name ≠ name := h x (by simp)
    have hrest : findEntry name rest = none := by
      rw [findEntry_eq_none_iff]; exact fun y hy => h y (by simp [hy])
    simp [findEntry, hx, ih hrest]

theorem findEntry_sweep_of_absent (name : String) (cs t : Int)
    (s : List CacheEntry) (h : findEntry name s = none) :
    findEntry name (sweepCache cs t s) = none := by
  rw [findEntry_eq_none_iff] at h ⊢
  intro e he
  exact h e (List.mem_of_mem_filter he)

theorem sweep_append (cs t : Int) (s : List CacheEntry) (e : CacheEntry) :
    sweepCache cs t (s ++ [e]) =
      sweepCache cs t s ++ (if e.mtime < t - cs then [] else [e]) := by
  by_cases h : e.mtime < t - cs <;> simp [sweepCache, List.filter_append, h]

-- ======================================================================
-- Cache claims
-- ======================================================================

theorem ccapi_cache_hit (method : String) (kwargs : Dict) (secs now : Int)
    (store : List CacheEntry) (remote : Except String Dict) (e : CacheEntry)
    (hsecs : 0 < secs)
    (hfind : findEntry (cacheFileName method (dpop "_join_key" kwargs))
      (sweepCache secs now store) = some e) :
    ccapi method kwargs secs now store remote =
      { result := .ok (match dget "_join_key" kwargs with
          | some v => dset e.content "_join_key" v
          | none => e.content),
        store := sweepCache secs now store, fetched := false } := by
  simp only [ccapi, if_pos hsecs, hfind]

theorem ccapi_cache_miss (method : String) (kwargs : Dict) (secs now : Int)
    (store : List CacheEntry) (remote : Except String Dict)
    (hmiss : (if 0 < secs then
        findEntry (cacheFileName method (dpop "_join_key" kwargs))
          (sweepCache secs now store) else none) = none) :
    ccapi method kwargs secs now store remote =
      match remote with
      | .error msg =>
        { result := .error (.remoteCallFailed method msg),
          store := sweepCache secs now store, fetched := true }
      | .ok r =>
        { result := .ok (match dget "_join_key" kwargs with
            | some v => dset (dpop "ResponseMetadata" r) "_join_key" v
            | none => dpop "ResponseMetadata" r),
          store := if 0 < secs then
              writeEntry (cacheFileName method (dpop "_join_key" kwargs)) now
                (dpop "ResponseMetadata" r) (sweepCache secs now store)
            else sweepCache secs now store,
          fetched := true } := by
  simp only [ccapi, hmiss]

/-- C4: for every operation name, argument set and ttl > 0, calling
`ccapi` twice with an identical key starting from a store holding no
entry for that key invokes the underlying remote fetch exactly once: the
first call fetches and persists, and any second call whose entry age
`t1 - t0` is < ttl does not fetch and returns the stored response
unchanged; once the age exceeds the ttl, the next call fetches again. -/
theorem ccapi_cache_idempotence
    (method : String) (kwargs : Dict) (secs t0 : Int)
    (store0 : List CacheEntry) (r : Dict)
    (hsecs : 0 < secs)
    (hmiss : findEntry (cacheFileName method (dpop "_join_key" kwargs))
               (sweepCache secs t0 store0) = none) :
    (ccapi method kwargs secs t0 store0 (.ok r)).fetched = true ∧
    (∀ t1 remote2, t1 - t0 < secs →
      (ccapi method kwargs secs t1
          (ccapi method kwargs secs t0 store0 (.ok r)).store remote2).fetched = false ∧
      (ccapi method kwargs secs t1
          (ccapi method kwargs secs t0 store0 (.ok r)).store remote2).result
        = (ccapi method kwargs secs t0 store0 (.ok r)).result) ∧
    (∀ t2 remote2, secs < t2 - t0 →
      (ccapi method kwargs secs t2
          (ccapi method kwargs secs t0 store0 (.ok r)).store remote2).fetched = true) := by
  have hcall1 : ccapi method kwargs secs t0 store0 (Except.ok r) =
      { result := .ok (match dget "_join_key" kwargs with
          | some v => dset (dpop "ResponseMetadata" r) "_join_key" v
          | none => dpop "ResponseMetadata" r),
        store := writeEntry (cacheFileName method (dpop "_join_key" kwargs)) t0
          (dpop "ResponseMetadata" r) (sweepCache secs t0 store0),
        fetched := true } := by
    have h := ccapi_cache_miss method kwargs secs t0 store0 (.ok r)
      (by rw [if_pos hsecs]; exact hmiss)
    rw [h]
    simp [hsecs]
  have hw : (ccapi method kwargs secs t0 store0 (Except.ok r)).store =
      sweepCache secs t0 store0 ++
        [⟨cacheFileName method (dpop "_join_key" kwargs), t0, dpop "ResponseMetadata" r⟩] := by
    rw [hcall1]
    exact writeEntry_of_absent _ _ _ _ hmiss
  refine ⟨by rw [hcall1], fun t1 remote2 ht1 => ?_, fun t2 remote2 ht2 => ?_⟩
  · have hsw : sweepCache secs t1 (ccapi method kwargs secs t0 store0 (Except.ok r)).store =
        sweepCache secs t1 (sweepCache secs t0 store0) ++
          [⟨cacheFileName method (dpop "_join_key" kwargs), t0, dpop "ResponseMetadata" r⟩] := by
      rw [hw, sweep_append]
      have : ¬(t0 < t1 - secs) := by omega
      simp [this]
    have habsent : findEntry (cacheFileName method (dpop "_join_key" kwargs))
        (sweepCache secs t1 (sweepCache secs t0 store0)) = none :=
      findEntry_sweep_of_absent _ _ _ _ hmiss
    have hfind : findEntry (cacheFileName method (dpop "_join_key" kwargs))
        (sweepCache secs t1 (ccapi method kwargs secs t0 store0 (Except.ok r)).store)
        = some ⟨cacheFileName method (dpop "_join_key" kwargs), t0, dpop "ResponseMetadata" r⟩ := by
      rw [hsw, findEntry_append_of_absent _ _ _ habsent]
      simp
    have h2 := ccapi_cache_hit method kwargs secs t1
      (ccapi method kwargs secs t0 store0 (Except.ok r)).store remote2 _ hsecs hfind
    constructor
    · rw [h2]
    · rw [h2, hcall1]
  · have hsw : sweepCache secs t2 (ccapi method kwargs secs t0 store0 (Except.ok r)).store =
        sweepCache secs t2 (sweepCache secs t0 store0) := by
      rw [hw, sweep_append]
      have : t0 < t2 - secs := by omega
      simp [this]
    have habsent : findEntry (cacheFileName method (dpop "_join_key" kwargs))
        (sweepCache secs t2 (ccapi method kwargs secs t0 store0 (Except.ok r)).store) = none := by
      rw [hsw]
      exact findEntry_sweep_of_absent _ _ _ _ hmiss
    have h3 := ccapi_cache_miss method kwargs secs t2
      (ccapi method kwargs secs t0 store0 (Except.ok r)).store remote2
      (by rw [if_pos hsecs]; exact habsent)
    cases remote2 with
    | error msg => rw [h3]
    | ok r2 => rw [h3]

/-- C4 witness: concrete instantiation of the idempotence theorem with a
20-second ttl, a fetch at time 0, a hit at time 10 (age 10 < 20) and a
re-fetch at time 30 (age 30 > 20). -/
theorem ccapi_cache_idempotence_witness :
    (ccapi "get_pull_request" [("pullRequestId", .str "1")] 20 0 []
      (.ok [("pullRequest", .obj [])])).fetched = true ∧
    (ccapi "get_pull_request" [("pullRequestId", .str "1")] 20 10
      (ccapi "get_pull_request" [("pullRequestId", .str "1")] 20 0 []
        (.ok [("pullRequest", .obj [])])).store
      (.ok [("other", .null)])).fetched = false ∧
    (ccapi "get_pull_request" [("pullRequestId", .str "1")] 20 30
      (ccapi "get_pull_request" [("pullRequestId", .str "1")] 20 0 []
        (.ok [("pullRequest", .obj [])])).store
      (.ok [("other", .null)])).fetched = true := by
  have h := ccapi_cache_idempotence "get_pull_request" [("pullRequestId", .str "1")] 20 0 []
    [("pullRequest", .obj [])] (by decide) (by decide)
  exact ⟨h.1, (h.2.1 10 (.ok [("other", .null)]) (by decide)).1,
    h.2.2 30 (.ok [("other", .null)]) (by decide)⟩

/-- C5: with ttl <= 0 the remote fetch is always invoked and the fetched
result is never persisted: the store after the call is exactly the swept
store, with no entry written. -/
theorem ccapi_ttl_nonpositive_bypass
    (method : String) (kwargs : Dict) (secs now : Int)
    (store : List CacheEntry) (remote : Except String Dict)
    (hsecs : secs ≤ 0) :
    (ccapi method kwargs secs now store remote).fetched = true ∧
    (ccapi method kwargs secs now store remote).store = sweepCache secs now store := by
  have hlt : ¬(0 < secs) := by omega
  cases remote with
  | error msg => simp [ccapi, hlt]
  | ok r => simp [ccapi, hlt]

/-- C5 witness: a ttl-0 call with a warm entry present still fetches and
writes nothing. -/
theorem ccapi_ttl_nonpositive_bypass_witness :
    (ccapi "get_blob" [("blobId", .str "b1")] 0 5
      [⟨"get_blob-blobId:b1.cache", 5, [("content", .str "x")]⟩]
      (.ok [("content", .str "y")])).fetched = true ∧
    (ccapi "get_blob" [("blobId", .str "b1")] 0 5
      [⟨"get_blob-blobId:b1.cache", 5, [("content", .str "x")]⟩]
      (.ok [("content", .str "y")])).store =
      sweepCache 0 5 [⟨"get_blob-blobId:b1.cache", 5, [("content", .str "x")]⟩] :=
  ccapi_ttl_nonpositive_bypass "get_blob" [("blobId", .str "b1")] 0 5
    [⟨"get_blob-blobId:b1.cache", 5, [("content", .str "x")]⟩]
    (.ok [("content", .str "y")]) (by decide)

/-- C10: every `ccapi` invocation sweeps with the CURRENT call's ttl, so a
ttl-0 call leaves the store equal to the sweep with threshold `now - 0`:
every pre-existing entry whose age is positive (mtime < now) is deleted,
even though the call itself neither reads nor writes any entry (and still
fetches). -/
theorem ccapi_ttl_zero_sweeps_current
    (method : String) (kwargs : Dict) (now : Int)
    (store : List CacheEntry) (remote : Except String Dict) :
    (ccapi method kwargs 0 now store remote).store =
      store.filter (fun e => !(decide (e.mtime < now))) ∧
    (∀ e ∈ store, e.mtime < now → e ∉ (ccapi method kwargs 0 now store remote).store) ∧
    (ccapi method kwargs 0 now store remote).fetched = true := by
  have hstore : (ccapi method kwargs 0 now store remote).store =
      store.filter (fun e => !(decide (e.mtime < now))) := by
    cases remote with
    | error msg => simp [ccapi, sweepCache]
    | ok r => simp [ccapi, sweepCache]
  refine ⟨hstore, fun e he hage hmem => ?_, ?_⟩
  · rw [hstore] at hmem
    have := List.of_mem_filter hmem
    simp [hage] at this
  · cases remote with
    | error msg => simp [ccapi]
    | ok r => simp [ccapi]

/-- C10 witness: a ttl-0 call on a store with one aged entry (mtime 1 <
now 5) deletes it. -/
theorem ccapi_ttl_zero_sweeps_current_witness :
    (ccapi "list_repositories" [] 0 5
      [⟨"old.cache", 1, []⟩] (.ok [])).store = [] ∧
    (⟨"old.cache", 1, []⟩ : CacheEntry) ∉
      (ccapi "list_repositories" [] 0 5 [⟨"old.cache", 1, []⟩] (.ok [])).store := by
  have h := ccapi_ttl_zero_sweeps_current "list_repositories" [] 5
    [⟨"old.cache", 1, []⟩] (.ok [])
  exact ⟨by rw [h.1]; decide, h.2.1 ⟨"old.cache", 1, []⟩ (by decide) (by decide)⟩

-- mapE lemmas -----------------------------------------------------------

theorem mapE_ok_length {f : α → Except CcErr β} :
    ∀ {xs : List α} {ys : List β}, mapE f xs = .ok ys → ys.length = xs.length := by
  intro xs
  induction xs with
  | nil => intro ys h; simp [mapE] at h; simp [← h]
  | cons x xs ih =>
    intro ys h
    simp only [mapE] at h
    cases hfx : f x with
    | error e => rw [hfx] at h; simp at h
    | ok y =>
      rw [hfx] at h
      cases hm : mapE f xs with
      | error e => rw [hm] at h; simp at h
      | ok ys' =>
        rw [hm] at h
        simp at h
        rw [← h]
        simp [ih hm]

theorem mapE_ok_get {f : α → Except CcErr β} :
    ∀ {xs : List α} {ys : List β}, mapE f xs = .ok ys →
      ∀ i (hx : i < xs.length) (hy : i < ys.length),
        f (xs.get ⟨i, hx⟩) = .ok (ys.get ⟨i, hy⟩) := by
  intro xs
  induction xs with
  | nil => intro ys h i hx hy; simp at hx
  | cons x xs ih =>
    intro ys h i hx hy
    simp only [mapE] at h
    cases hfx : f x with
    | error e => rw [hfx] at h; simp at h
    | ok y =>
      rw [hfx] at h
      cases hm : mapE f xs with
      | error e => rw [hm] at h; simp at h
      | ok ys' =>
        rw [hm] at h
        simp at h
        subst h
        cases i with
        | zero => simpa using hfx
        | succ n =>
          simp only [List.get_cons_succ]
          exact ih hm n (by simpa using hx) (by simpa using hy)

theorem mapE_error_of_mem {f : α → Except CcErr β} {x : α} {e : CcErr} :
    ∀ {xs : List α}, x ∈ xs → f x = .error e →
      ∃ e', mapE f xs = .error e' := by
  intro xs
  induction xs with
  | nil => intro h; simp at h
  | cons y ys ih =>
    intro hmem hfx
    rcases List.mem_cons.mp hmem with heq | htail
    · subst heq
      exact ⟨e, by simp [mapE, hfx]⟩
    · cases hfy : f y with
      | error e0 => exact ⟨e0, by simp [mapE, hfy]⟩
      | ok y0 =>
        obtain ⟨e', he'⟩ := ih htail hfx
        exact ⟨e', by simp [mapE, hfy, he']⟩

theorem mapE_error_elem {f : α → Except CcErr β} {e : CcErr} :
    ∀ {xs : List α}, mapE f xs = .error e → ∃ x ∈ xs, f x = .error e := by
  intro xs
  induction xs with
  | nil => intro h; simp [mapE] at h
  | cons y ys ih =>
    intro h
    simp only [mapE] at h
    cases hfy : f y with
    | error e0 =>
      rw [hfy] at h
      simp at h
      exact ⟨y, by simp, by rw [hfy, h]⟩
    | ok y0 =>
      rw [hfy] at h
      cases hm : mapE f ys with
      | error e0 =>
        rw [hm] at h
        simp at h
        obtain ⟨x, hx, hfx⟩ := ih (by rw [hm, h])
        exact ⟨x, by simp [hx], hfx⟩
      | ok ys' => rw [hm] at h; simp at h

-- Shape lemmas for the join pipeline ------------------------------------

theorem prepareRecord_ok_fst {spec : JoinSpec} {rcs : Option JVal} {rec : Dict}
    {p : Dict × Dict} (h : prepareRecord spec rcs rec = .ok p) :
    ∃ jk, p.1 = dset rec "_join_key" jk := by
  simp only [prepareRecord] at h
  split at h
  · simp at h
  · simp at h
    exact ⟨_, by rw [← h]⟩

theorem mergeRecord_ok_shape {lookup : List (JVal × JVal)} {rec out : Dict}
    (h : mergeRecord lookup rec = .ok out) :
    ∃ fields, out = dupdate rec fields := by
  simp only [mergeRecord] at h
  split at h
  · simp at h
  · split at h <;> simp at h
    next fields _ => exact ⟨fields, h.symm⟩

theorem ccapiForJoin_error_shape {remote : String → Dict → Except String Dict}
    {method : String} {jd : Dict} {e : CcErr}
    (h : ccapiForJoin remote method jd = .error e) :
    ∃ msg, e = .remoteCallFailed method msg := by
  unfold ccapiForJoin at h
  cases hr : remote method (dpop "_join_key" jd) with
  | error msg => rw [hr] at h; simp at h; exact ⟨msg, h.symm⟩
  | ok r => rw [hr] at h; simp at h

theorem joinData_ok_length_keys {joinIdx : Nat} {spec : JoinSpec}
    {rcs : Option JVal} {data : List Dict}
    {remote : String → Dict → Except String Dict} {out : List Dict}
    (hok : joinData joinIdx spec rcs data remote = .ok out) :
    out.length = data.length ∧
    ∀ i (hi : i < data.length) (ho : i < out.length) k,
      (dget k (data.get ⟨i, hi⟩)).isSome → (dget k (out.get ⟨i, ho⟩)).isSome := by
  simp only [joinData] at hok
  split at hok
  · simp at hok
  · rename_i prepared hprep
    split at hok
    · simp at hok
    · rename_i joinResults hcalls
      split at hok
      · simp at hok
      · rename_i lookup hlook
        have hlen1 : prepared.length = data.length := mapE_ok_length hprep
        have hlen2 : out.length = (prepared.map Prod.fst).length := mapE_ok_length hok
        have hlen : out.length = data.length := by
          rw [hlen2, List.length_map, hlen1]
        refine ⟨hlen, fun i hi ho k hk => ?_⟩
        have hi2 : i < prepared.length := by omega
        have hi3 : i < (prepared.map Prod.fst).length := by
          rw [List.length_map]; omega
        have hpi := mapE_ok_get hprep i hi hi2
        obtain ⟨jk, hfst⟩ := prepareRecord_ok_fst hpi
        have hmi := mapE_ok_get hok i hi3 ho
        obtain ⟨fields, hout⟩ := mergeRecord_ok_shape hmi
        rw [hout]
        apply dget_dupdate_isSome
        have hgm : (prepared.map Prod.fst).get ⟨i, hi3⟩ = (prepared.get ⟨i, hi2⟩).1 := by
          simp
        rw [hgm, hfst]
        exact dget_dset_isSome _ _ _ _ hk

theorem performJoinsFrom_ok_length_keys :
    ∀ (specs : List JoinSpec) (startIdx : Nat) (rcs : Option JVal)
      (remote : String → Dict → Except String Dict) (data out : List Dict),
      performJoinsFrom startIdx rcs remote specs data = .ok out →
      out.length = data.length ∧
      ∀ i (hi : i < data.length) (ho : i < out.length) k,
        (dget k (data.get ⟨i, hi⟩)).isSome → (dget k (out.get ⟨i, ho⟩)).isSome := by
  intro specs
  induction specs with
  | nil =>
    intro startIdx rcs remote data out h
    simp [performJoinsFrom] at h
    subst h
    exact ⟨rfl, fun i hi ho k hk => hk⟩
  | cons spec rest ih =>
    intro startIdx rcs remote data out h
    simp only [performJoinsFrom] at h
    cases hj : joinData startIdx spec rcs data remote with
    | error e => rw [hj] at h; simp at h
    | ok d2 =>
      rw [hj] at h
      have h1 := joinData_ok_length_keys hj
      have h2 := ih (startIdx + 1) rcs remote d2 out h
      refine ⟨h2.1.trans h1.1, fun i hi ho k hk => ?_⟩
      have hm : i < d2.length := by omega
      exact h2.2 i hm ho k (h1.2 i hi hm k hk)

-- ======================================================================
-- Claim theorems: cc extraction and the join engine
-- ======================================================================

/-- C1: whenever a `cc` invocation's join step (one or more joins folded
over the working-data list) returns a list, that list has exactly the
length of the input list, and the record at each index i is the enriched
version of input record i (in particular it retains every key input
record i had), so no record is dropped or reordered by a join. -/
theorem join_completeness (specs : List JoinSpec) (rcs : Option JVal)
    (data : List Dict) (remote : String → Dict → Except String Dict)
    (out : List Dict)
    (hok : performJoins specs rcs data remote = .ok out) :
    out.length = data.length ∧
    ∀ i (hi : i < data.length) (ho : i < out.length) k,
      (dget k (data.get ⟨i, hi⟩)).isSome → (dget k (out.get ⟨i, ho⟩)).isSome :=
  performJoinsFrom_ok_length_keys specs 0 rcs remote data out hok

/-- C1 witness: a concrete one-join run over two root records returns two
records, and record 0 still holds its `pullRequestId` key. -/
theorem join_completeness_witness :
    c1Out.length = c1Data.length ∧
    (dget "pullRequestId" (c1Out.get ⟨0, by decide⟩)).isSome = true := by
  have h := join_completeness [c1Spec] none c1Data c1Remote c1Out (by decide)
  exact ⟨h.1, h.2 0 (by decide) (by decide) "pullRequestId" (by decide)⟩

/-- C2 counterexample: joining root records [{k:"a"},{k:"b"}] on `k`
(with store_root) against a secondary producing {k:"a", v:1} for key "a"
and nothing for key "b" does NOT yield [{k:"a", v:1}, {k:"b"}] as the
claim states: the code also writes the reserved `_join_key` field into
every root record (line 331). -/
theorem join_unmatched_counterexample :
    joinData 0 c2Spec none c2Data c2Remote ≠
      .ok [[("k", .str "a"), ("v", .int 1)], [("k", .str "b")]] := by
  decide

/-- C2 amended: the join yields [{k:"a", _join_key:"a", v:1},
{k:"b", _join_key:"b"}]: a root record whose join key found no secondary
fields is modified only by the addition of the reserved `_join_key`
correlation field, and in particular carries no `v` field; it is not
dropped. -/
theorem join_unmatched_amended :
    joinData 0 c2Spec none c2Data c2Remote =
      .ok [[("k", .str "a"), ("_join_key", .str "a"), ("v", .int 1)],
           [("k", .str "b"), ("_join_key", .str "b")]] ∧
    dget "v" [("k", .str "b"), ("_join_key", .str "b")] = none := by
  decide

/-- C3: if the derivation of the secondary-call argument sets succeeds
and any one of the secondary calls fails (the remote service rejects it),
the entire join fails with a `RemoteCallFailed` error for the join
method: no partially-joined list is returned, even for records whose own
secondary calls succeeded. -/
theorem join_fail_fast (joinIdx : Nat) (spec : JoinSpec) (rcs : Option JVal)
    (data : List Dict) (remote : String → Dict → Except String Dict)
    (prepared : List (Dict × Dict))
    (hprep : mapE (prepareRecord spec rcs) data = .ok prepared)
    (i : Nat) (hi : i < prepared.length) (msg : String)
    (hfail : remote spec.method (dpop "_join_key" (prepared.get ⟨i, hi⟩).2) = .error msg) :
    ∃ m, joinData joinIdx spec rcs data remote = .error (.remoteCallFailed spec.method m) := by
  have hcallFail : ccapiForJoin remote spec.method ((prepared.get ⟨i, hi⟩).2) =
      .error (.remoteCallFailed spec.method msg) := by
    unfold ccapiForJoin
    rw [hfail]
  have hmem : (prepared.get ⟨i, hi⟩).2 ∈ prepared.map Prod.snd := by
    exact List.mem_map_of_mem Prod.snd (prepared.get_mem i hi)
  obtain ⟨e', he'⟩ := mapE_error_of_mem hmem hcallFail
  obtain ⟨x, hx, hfx⟩ := mapE_error_elem he'
  obtain ⟨m, hm⟩ := ccapiForJoin_error_shape hfx
  refine ⟨m, ?_⟩
  simp only [joinData, hprep, he', hm]

/-- C3 witness: the spec's concrete scenario: items "1" and "2", where
getDetail on "2" fails; the whole join call errors even though item "1"
would have succeeded. -/
theorem join_fail_fast_witness :
    ∃ m, joinData 0 c3Spec none c3Data c3Remote = .error (.remoteCallFailed "getDetail" m) :=
  join_fail_fast 0 c3Spec none c3Data c3Remote c3Prepared (by decide) 1 (by decide)
    "AccessDenied" (by decide)

/-- C9: a JoinSpec that omits `store_root` gets a positional default:
`join_idx > 0`.  The first join in the list defaults to merging only the
secondary response's first non-reserved field, every later join to
merging the whole response, so one identical spec behaves differently at
position 0 and position 1, as shown by the concrete run. -/
theorem store_root_positional_default :
    (∀ (joinIdx : Nat) (spec : JoinSpec), dget "store_root" spec.extra = none →
      storeRootOf joinIdx spec = decide (0 < joinIdx)) ∧
    joinData 0 c9Spec none c9Data c9Remote ≠ joinData 1 c9Spec none c9Data c9Remote := by
  constructor
  · intro joinIdx spec h
    unfold storeRootOf
    rw [h]
  · decide

/-- C9 witness: the default evaluated at positions 0 and 1 of a spec with
no `store_root` entry. -/
theorem store_root_positional_default_witness :
    storeRootOf 0 ⟨"m", "k", []⟩ = false ∧ storeRootOf 1 ⟨"m", "k", []⟩ = true := by
  have h := store_root_positional_default.1
  exact ⟨(h 0 ⟨"m", "k", []⟩ rfl).trans (by decide),
    (h 1 ⟨"m", "k", []⟩ rfl).trans (by decide)⟩

-- C6 ---------------------------------------------------------------------

theorem firstListValue_eq_find (r : Dict) :
    firstListValue r = (r.find? (fun kv => kv.2.isArr)).bind
      (fun kv => match kv.2 with | .arr l => some l | _ => none) := by
  induction r with
  | nil => rfl
  | cons kv rest ih =>
    obtain ⟨k, v⟩ := kv
    cases v <;> simp [firstListValue, List.find?, JVal.isArr, ih]

/-- C6 counterexample: for the response {a: [], b: 1}, the first
list-valued field exists (value []), but the code does not select it: the
`data == []` fallback (line 293) hands back the whole response instead,
contradicting the claim's rule. -/
theorem autoExtract_counterexample :
    autoExtract [("a", .arr []), ("b", .int 1)] ≠
      claimedAutoExtract [("a", .arr []), ("b", .int 1)] ∧
    claimedAutoExtract [("a", .arr []), ("b", .int 1)] = .arr [] ∧
    autoExtract [("a", .arr []), ("b", .int 1)] =
      .obj [("a", .arr []), ("b", .int 1)] := by
  decide

/-- C6 amended: with no result-path query, the working data is the value
of the first list-valued field of the response, scanned in declared
order, PROVIDED that list is non-empty; if no field holds a list value,
or the first list-valued field holds the empty list, the whole raw
response is treated as a single record. -/
theorem autoExtract_eq_amended (r : Dict) :
    autoExtract r = amendedAutoExtract r := by
  unfold autoExtract amendedAutoExtract
  rw [firstListValue_eq_find]
  cases hf : r.find? (fun kv => kv.2.isArr) with
  | none => simp
  | some kv =>
    obtain ⟨k, v⟩ := kv
    cases v with
    | arr l =>
      cases l with
      | nil => simp
      | cons x xs => simp
    | null => simp
    | bool b => simp
    | int n => simp
    | str s => simp
    | obj fields => simp

-- ======================================================================
-- difflib: SequenceMatcher (embedded from the CPython 3.11 source).
-- print_diff (lines 363-434) is built on difflib._mdiff, so the library
-- is embedded faithfully; strings are lists of characters so that
-- concrete runs reduce in the kernel.
-- ======================================================================

/-- C7 counterexample: on from = "line1\nline2\nline3" and to =
"line1\nliNe2\nline4\nline5" the renderer does NOT produce the claimed
marks: the claim places the added rows for "line4" and "line5" at
to-line numbers 4 and 5, but "line4" and "line5" are the third and
fourth lines of `to` (and `to` has only four lines at all). -/
theorem print_diff_line_numbers_counterexample :
    (printDiffRows c7From c7To).map rowMarks ≠
      [(' ', some 1, some 1), ('-', some 2, none), ('+', none, some 2),
       ('-', some 3, none), ('+', none, some 4), ('+', none, some 5)] := by
  decide

/-- C7 amended: the rendered rows are: line 1 as a context row (1,1);
line 2 as a removed/added pair (2 -> blank, blank -> 2); "line3" and
"line4" as a removed/added pair (3 -> blank, blank -> 3), since difflib
pairs them as an intraline change; and "line5" as an added row
(blank -> 4).  This matches the repository's own test expectation
(tests/test_ccpr.py, get_pr_output). -/
theorem print_diff_line_numbers_amended :
    printDiffRows c7From c7To =
      [.row ⟨' ', some 1, some 1, "line1".data⟩,
       .row ⟨'-', some 2, none, "line2".data⟩,
       .row ⟨'+', none, some 2, "liNe2".data⟩,
       .row ⟨'-', some 3, none, "line3".data⟩,
       .row ⟨'+', none, some 3, "line4".data⟩,
       .row ⟨'+', none, some 4, "line5".data⟩] := by
  decide

-- ======================================================================
-- C8: identical inputs produce an empty diff.
-- The key fact is that `find_longest_match` on (a, a) over a full range
-- returns the full diagonal block: the j2len dynamic programming loop
-- only ever improves the best block on the diagonal (shown by the
-- invariants below), and the non-junk extension loops (which ignore
-- autojunk-purged elements) then extend the diagonal block to the whole
-- range since the line-level matcher has no isjunk function.
-- ======================================================================

theorem occurrences_mem {α : Type} [DecidableEq α] (b : List α) (x : α) (j : Nat) :
    j ∈ occurrences b x ↔ j < b.length ∧ b.get? j = some x := by
  simp [occurrences, List.mem_filter, List.mem_range]

theorem occurrences_sorted {α : Type} [DecidableEq α] (b : List α) (x : α) :
    (occurrences b x).Pairwise (· < ·) := by
  exact List.Pairwise.filter _ (List.pairwise_lt_range b.length)

theorem b2jF_subset {α : Type} [DecidableEq α] (a : List α) (x : α) (j : Nat)
    (h : j ∈ b2jF a none x) : j ∈ occurrences a x := by
  unfold b2jF at h
  split at h
  · simp at h
  · exact h

theorem b2jF_mem_get {α : Type} [DecidableEq α] (a : List α) (x : α) (j : Nat)
    (h : j ∈ b2jF a none x) : a.get? j = some x :=
  ((occurrences_mem a x j).mp (b2jF_subset a x j h)).2

theorem b2jF_mem_lt {α : Type} [DecidableEq α] (a : List α) (x : α) (j : Nat)
    (h : j ∈ b2jF a none x) : j < a.length :=
  ((occurrences_mem a x j).mp (b2jF_subset a x j h)).1

theorem b2jF_all {α : Type} [DecidableEq α] (a : List α) (x : α)
    (h : b2jF a none x ≠ []) : b2jF a none x = occurrences a x := by
  by_cases hc : (bjunkF none x || isPopular a none x) = true
  · exfalso
    apply h
    unfold b2jF
    rw [if_pos hc]
  · unfold b2jF
    rw [if_neg hc]

theorem b2jF_sorted {α : Type} [DecidableEq α] (a : List α) (x : α) :
    (b2jF a none x).Pairwise (· < ·) := by
  unfold b2jF
  split
  · exact List.Pairwise.nil
  · exact occurrences_sorted a x

theorem elig_of_mem {α : Type} [DecidableEq α] (a : List α) (x : α) (j : Nat)
    (h : j ∈ b2jF a none x) : eligB a j = true := by
  have hg := b2jF_mem_get a x j h
  unfold eligB
  rw [hg]
  simpa using h

theorem diagRun_le {α : Type} [DecidableEq α] (a : List α) :
    ∀ m, diagRun a m ≤ m + 1 := by
  intro m
  induction m with
  | zero => unfold diagRun; split <;> omega
  | succ k ih => unfold diagRun; split <;> omega

theorem diagRun_pos_of_elig {α : Type} [DecidableEq α] (a : List α) (m : Nat)
    (h : eligB a m = true) : 1 ≤ diagRun a m := by
  cases m with
  | zero => simp [diagRun, h]
  | succ k => simp [diagRun, h]

theorem diagRun_zero_elig {α : Type} [DecidableEq α] (a : List α)
    (h : eligB a 0 = true) : diagRun a 0 = 1 := by
  simp [diagRun, h]

theorem diagRun_succ_elig {α : Type} [DecidableEq α] (a : List α) (m : Nat)
    (h : eligB a (m + 1) = true) : diagRun a (m + 1) = diagRun a m + 1 := by
  simp [diagRun, h]

theorem diagRun_not_elig {α : Type} [DecidableEq α] (a : List α) (m : Nat)
    (h : eligB a m = false) : diagRun a m = 0 := by
  cases m with
  | zero => simp [diagRun, h]
  | succ k => simp [diagRun, h]

theorem runEnd_zero {α : Type} [DecidableEq α] (a : List α) : runEnd a 0 = 0 := rfl

theorem runEnd_succ {α : Type} [DecidableEq α] (a : List α) (m : Nat) :
    runEnd a (m + 1) = diagRun a m := rfl

theorem flmInner_self_inv {α : Type} [DecidableEq α] (a : List α) (i : Nat) (ai : α)
    (hai : a.get? i = some ai)
    (old : Nat → Nat)
    (holdRE : ∀ j, old j ≤ runEnd a i)
    (holdDR : ∀ j, old j ≤ diagRun a j)
    (holdEx : ∀ m, i = m + 1 → old m = diagRun a m) :
    ∀ (js : List Nat), (∀ j ∈ js, j ∈ b2jF a none ai) → js.Pairwise (· < ·) →
    ∀ (nj : Nat → Nat) (d s : Nat),
      d + s ≤ i + 1 →
      (∀ m, m < i → diagRun a m ≤ s) →
      (i ∈ js ∨ diagRun a i ≤ s) →
      (∀ j, nj j ≤ diagRun a i) →
      (∀ j, nj j ≤ diagRun a j) →
      (nj i = diagRun a i ∨ i ∈ js) →
      InnerInv a i (flmInner 0 a.length i old js nj (d, d, s)) := by
  have hilt : i < a.length := by
    by_contra hc
    rw [List.get?_eq_none.mpr (by omega)] at hai
    cases hai
  intro js
  induction js with
  | nil =>
    intro _ _ nj d s hsum hmlt hdisj hnjI hnjJ hnjEx
    have hdi : diagRun a i ≤ s := hdisj.resolve_left (by simp)
    have hni : nj i = diagRun a i := hnjEx.resolve_right (by simp)
    refine ⟨rfl, hsum, fun m hm => ?_, hnjI, hnjJ, hni⟩
    rcases Nat.lt_or_ge m i with h | h
    · exact hmlt m h
    · have : m = i := by omega
      rw [this]
      exact hdi
  | cons j rest ih =>
    intro hmem hpw nj d s hsum hmlt hdisj hnjI hnjJ hnjEx
    have hjmem : j ∈ b2jF a none ai := hmem j (List.mem_cons_self j rest)
    have hjget : a.get? j = some ai := b2jF_mem_get a ai j hjmem
    have hjlt : j < a.length := b2jF_mem_lt a ai j hjmem
    have heligj : eligB a j = true := elig_of_mem a ai j hjmem
    have heligi : eligB a i = true := by
      apply elig_of_mem a ai i
      rw [b2jF_all a ai (List.ne_nil_of_mem hjmem)]
      exact (occurrences_mem a ai i).mpr ⟨hilt, hai⟩
    have hmemRest : ∀ x ∈ rest, x ∈ b2jF a none ai :=
      fun x hx => hmem x (List.mem_cons_of_mem j hx)
    have hpwRest : rest.Pairwise (· < ·) := (List.pairwise_cons.mp hpw).2
    have hheadlt : ∀ x ∈ rest, j < x := (List.pairwise_cons.mp hpw).1
    -- evaluate one step of the loop
    simp only [flmInner]
    rw [if_neg (by omega : ¬ j < 0), if_neg (by omega : ¬ a.length ≤ j)]
    have hkDRj : (if j = 0 then 0 else old (j - 1)) + 1 ≤ diagRun a j := by
      cases j with
      | zero =>
        rw [if_pos rfl]
        exact diagRun_pos_of_elig a 0 heligj
      | succ m =>
        have h1 : old m ≤ diagRun a m := holdDR m
        rw [diagRun_succ_elig a m heligj, if_neg (Nat.succ_ne_zero m)]
        simp only [Nat.add_sub_cancel]
        omega
    have hkDRi : (if j = 0 then 0 else old (j - 1)) + 1 ≤ diagRun a i := by
      cases j with
      | zero =>
        rw [if_pos rfl]
        exact diagRun_pos_of_elig a i heligi
      | succ m =>
        have h1 : old m ≤ runEnd a i := holdRE m
        rw [if_neg (Nat.succ_ne_zero m)]
        simp only [Nat.add_sub_cancel]
        cases i with
        | zero =>
          rw [diagRun_zero_elig a heligi]
          rw [runEnd_zero] at h1
          omega
        | succ p =>
          rw [diagRun_succ_elig a p heligi]
          rw [runEnd_succ] at h1
          omega
    rcases Nat.lt_trichotomy j i with hji | hji | hji
    · -- j < i: the stored runs at earlier diagonals prevent any update
      have hnoupd : ¬ (s < (if j = 0 then 0 else old (j - 1)) + 1) := by
        have := hmlt j hji
        omega
      rw [if_neg hnoupd]
      apply ih hmemRest hpwRest
      · exact hsum
      · exact hmlt
      · rcases hdisj with hin | hs
        · rcases List.mem_cons.mp hin with h | h
          · omega
          · exact Or.inl h
        · exact Or.inr hs
      · intro j'
        by_cases hj' : j' = j
        · rw [hj']
          rw [if_pos rfl]
          exact hkDRi
        · simp only [if_neg hj']
          exact hnjI j'
      · intro j'
        by_cases hj' : j' = j
        · subst hj'
          rw [if_pos rfl]
          exact hkDRj
        · simp only [if_neg hj']
          exact hnjJ j'
      · by_cases hij : i = j
        · omega
        · simp only [if_neg hij]
          rcases hnjEx with h | h
          · exact Or.inl h
          · rcases List.mem_cons.mp h with h' | h'
            · omega
            · exact Or.inr h'
    · -- j = i: the only index where an update can occur, and it is diagonal
      subst hji
      have hinrest : j ∉ rest := fun hc => absurd (hheadlt j hc) (by omega)
      have hkExact : (if j = 0 then 0 else old (j - 1)) + 1 = diagRun a j := by
        cases j with
        | zero =>
          rw [if_pos rfl]
          rw [diagRun_zero_elig a heligi]
        | succ m =>
          have h1 : old m = diagRun a m := holdEx m rfl
          rw [if_neg (Nat.succ_ne_zero m)]
          simp only [Nat.add_sub_cancel]
          rw [diagRun_succ_elig a m heligi, h1]
      by_cases hupd : s < (if j = 0 then 0 else old (j - 1)) + 1
      · rw [if_pos hupd]
        have hkle : (if j = 0 then 0 else old (j - 1)) + 1 ≤ j + 1 := by
          rw [hkExact]
          exact diagRun_le a j
        apply ih hmemRest hpwRest
        · omega
        · intro m hm
          have := hmlt m hm
          omega
        · right
          omega
        · intro j'
          by_cases hj' : j' = j
          · rw [hj']
            rw [if_pos rfl]
            omega
          · simp only [if_neg hj']
            exact hnjI j'
        · intro j'
          by_cases hj' : j' = j
          · subst hj'
            rw [if_pos rfl]
            exact hkDRj
          · simp only [if_neg hj']
            exact hnjJ j'
        · left
          rw [if_pos rfl]
          exact hkExact
      · rw [if_neg hupd]
        apply ih hmemRest hpwRest
        · exact hsum
        · exact hmlt
        · right
          omega
        · intro j'
          by_cases hj' : j' = j
          · rw [hj']
            rw [if_pos rfl]
            exact hkDRi
          · simp only [if_neg hj']
            exact hnjI j'
        · intro j'
          by_cases hj' : j' = j
          · subst hj'
            rw [if_pos rfl]
            exact hkDRj
          · simp only [if_neg hj']
            exact hnjJ j'
        · left
          rw [if_pos rfl]
          exact hkExact
    · -- i < j: the diagonal was already processed, so no update is possible
      have hinot : i ∉ (j :: rest) := by
        intro hc
        rcases List.mem_cons.mp hc with h | h
        · omega
        · exact absurd (hheadlt i h) (by omega)
      have hdR : diagRun a i ≤ s := hdisj.resolve_left hinot
      have hnoupd : ¬ (s < (if j = 0 then 0 else old (j - 1)) + 1) := by omega
      rw [if_neg hnoupd]
      have hnjExact : nj i = diagRun a i := hnjEx.resolve_right hinot
      apply ih hmemRest hpwRest
      · exact hsum
      · exact hmlt
      · right
        exact hdR
      · intro j'
        by_cases hj' : j' = j
        · rw [hj']
          rw [if_pos rfl]
          exact hkDRi
        · simp only [if_neg hj']
          exact hnjI j'
      · intro j'
        by_cases hj' : j' = j
        · subst hj'
          rw [if_pos rfl]
          exact hkDRj
        · simp only [if_neg hj']
          exact hnjJ j'
      · left
        have hij : ¬ i = j := by omega
        simp only [if_neg hij]
        exact hnjExact

theorem flmOuter_self_inv {α : Type} [DecidableEq α] (a : List α) :
    ∀ (cnt i : Nat), i + cnt = a.length →
    ∀ (old : Nat → Nat) (d s : Nat),
      (∀ j, old j ≤ runEnd a i) →
      (∀ j, old j ≤ diagRun a j) →
      (∀ m, i = m + 1 → old m = diagRun a m) →
      d + s ≤ i →
      (∀ m, m < i → diagRun a m ≤ s) →
      ∃ d2 s2,
        flmOuter a (b2jF a none) 0 a.length (List.range' i cnt) old (d, d, s) = (d2, d2, s2) ∧
        d2 + s2 ≤ a.length ∧ ∀ m, m < a.length → diagRun a m ≤ s2 := by
  intro cnt
  induction cnt with
  | zero =>
    intro i hi old d s _ _ _ hds hmlt
    exact ⟨d, s, rfl, by omega, fun m hm => hmlt m (by omega)⟩
  | succ cnt ih =>
    intro i hi old d s holdRE holdDR holdEx hds hmlt
    have hilt : i < a.length := by omega
    obtain ⟨ai, hai⟩ : ∃ ai, a.get? i = some ai := ⟨_, List.get?_eq_get hilt⟩
    have hdisj : i ∈ b2jF a none ai ∨ diagRun a i ≤ s := by
      by_cases helig : eligB a i = true
      · left
        simp only [eligB, hai] at helig
        exact of_decide_eq_true helig
      · right
        rw [diagRun_not_elig a i (by simpa using helig)]
        exact Nat.zero_le s
    have hnjEx : (fun _ : Nat => 0) i = diagRun a i ∨ i ∈ b2jF a none ai := by
      by_cases helig : eligB a i = true
      · right
        simp only [eligB, hai] at helig
        exact of_decide_eq_true helig
      · left
        show (0 : Nat) = diagRun a i
        rw [diagRun_not_elig a i (by simpa using helig)]
    have hinv := flmInner_self_inv a i ai hai old holdRE holdDR holdEx
      (b2jF a none ai) (fun _ h => h) (b2jF_sorted a ai)
      (fun _ => 0) d s (by omega) hmlt hdisj
      (fun _ => Nat.zero_le _) (fun _ => Nat.zero_le _) hnjEx
    unfold InnerInv at hinv
    rw [List.range'_succ i cnt 1]
    simp only [flmOuter, hai]
    rcases hre : flmInner 0 a.length i old (b2jF a none ai) (fun _ => 0) (d, d, s) with
      ⟨nj2, d2, e2, s2⟩
    rw [hre] at hinv
    obtain ⟨h1, h2, h3, h4, h5, h6⟩ := hinv
    simp only at h1 h2 h3 h4 h5 h6
    subst h1
    exact ih (i + 1) (by omega) nj2 d2 s2
      (fun j => by rw [runEnd_succ]; exact h4 j) h5
      (fun m hm => by have hmi : m = i := by omega
                      rw [hmi]; exact h6)
      h2 h3

theorem extLower_diag {α : Type} [DecidableEq α] (a : List α) :
    ∀ (d s : Nat), d ≤ a.length →
      extLower a a 0 0 (bjunkF (none : Option (α → Bool))) false d d s = (0, 0, s + d) := by
  intro d
  induction d with
  | zero => intro s _; rfl
  | succ d ih =>
    intro s hd
    have hdlt : d < a.length := by omega
    obtain ⟨x, hx⟩ : ∃ x, a[d]? = some x := ⟨_, List.getElem?_eq_getElem hdlt⟩
    simp [extLower, Nat.add_sub_cancel, hx, bjunkF]
    rw [ih (s + 1) (by omega)]
    have h : s + 1 + d = s + (d + 1) := by omega
    rw [h]

theorem extUpper_diag {α : Type} [DecidableEq α] (a : List α) :
    ∀ (fuel s : Nat), s + fuel = a.length →
      extUpper a a a.length a.length 0 0 (bjunkF (none : Option (α → Bool))) false fuel s
        = a.length := by
  intro fuel
  induction fuel with
  | zero => intro s hs; simpa [extUpper] using hs
  | succ fuel ih =>
    intro s hs
    have hslt : s < a.length := by omega
    obtain ⟨x, hx⟩ : ∃ x, a[s]? = some x := ⟨_, List.getElem?_eq_getElem hslt⟩
    simp [extUpper, Nat.zero_add, hx, bjunkF, hslt]
    exact ih (s + 1) (by omega)

theorem findLongestMatch_self {α : Type} [DecidableEq α] (a : List α) :
    findLongestMatch a a (b2jF a none) (bjunkF none) 0 a.length 0 a.length
      = (0, 0, a.length) := by
  obtain ⟨d2, s2, hdp, hle, _⟩ := flmOuter_self_inv a a.length 0 (Nat.zero_add a.length)
    (fun _ => 0) 0 0
    (fun j => Nat.zero_le _) (fun j => Nat.zero_le _) (fun m hm => by omega)
    (by omega) (fun m hm => by omega)
  simp only [findLongestMatch, Nat.sub_zero, hdp]
  rw [extLower_diag a d2 s2 (by omega)]
  simp only []
  rw [extUpper_diag a (a.length - (0 + (s2 + d2))) (s2 + d2) (by omega)]
  simp only [extLower]
  rw [show a.length - (0 + a.length) = 0 by omega]
  simp only [extUpper]

theorem getOpcodes_self {α : Type} [DecidableEq α] (a : List α) :
    getOpcodes (none : Option (α → Bool)) a a =
      if a.length = 0 then [] else [(.equal, 0, a.length, 0, a.length)] := by
  unfold getOpcodes getMatchingBlocks
  by_cases h : a.length = 0
  · rw [if_pos h]
    have ha : a = [] := List.length_eq_zero.mp h
    subst ha
    rfl
  · rw [if_neg h]
    simp [matchingBlocksAux, findLongestMatch_self a, collapseBlocks, opcodesFromBlocks, h]

theorem differDump_drop (tag : Char) (x : List Line) :
    ∀ (n lo : Nat), lo + n = x.length →
      (List.range' lo n).map (fun i => tag :: ' ' :: ((x.get? i).getD [])) =
        (x.drop lo).map (fun l => tag :: ' ' :: l) := by
  intro n
  induction n with
  | zero =>
    intro lo h
    rw [List.drop_eq_nil_of_le (by omega)]
    rfl
  | succ n ih =>
    intro lo h
    have hlt : lo < x.length := by omega
    have hget : x.get? lo = some (x.get ⟨lo, hlt⟩) := List.get?_eq_get hlt
    rw [List.range'_succ lo n 1, List.drop_eq_getElem_cons hlt]
    simp only [List.map_cons, hget, Option.getD_some, List.get_eq_getElem]
    rw [ih (lo + 1) (by omega)]

theorem differDump_full (tag : Char) (x : List Line) :
    differDump tag x 0 x.length = x.map (fun l => tag :: ' ' :: l) := by
  have hd := differDump_drop tag x x.length 0 (by omega)
  simpa [differDump] using hd

theorem differCompare_self (a : List Line) :
    differCompare a a = a.map (fun l => ' ' :: ' ' :: l) := by
  unfold differCompare
  rw [getOpcodes_self]
  by_cases h : a.length = 0
  · rw [if_pos h]
    have ha : a = [] := List.length_eq_zero.mp h
    subst ha
    rfl
  · rw [if_neg h]
    simp only [List.flatMap_cons, List.flatMap_nil, List.append_nil]
    exact differDump_full ' ' a

theorem lineIterator_ctx_flags :
    ∀ (fuel : Nat) (rem : List Line) (nf nt : Nat),
      (∀ l ∈ rem, l.headD 'X' = ' ') →
      ∀ it ∈ lineIterator fuel rem nf nt 0, it.2.2 = false := by
  intro fuel
  induction fuel with
  | zero =>
    intro rem nf nt _ it hit
    simp [lineIterator] at hit
  | succ fuel ih =>
    intro rem nf nt hall it hit
    cases rem with
    | nil =>
      have hnil : lineIterator (fuel + 1) ([] : List Line) nf nt 0 = [] := rfl
      rw [hnil] at hit
      simp at hit
    | cons l rest =>
      have hc0 : windowChar (l :: rest) 0 = ' ' := hall l (List.mem_cons_self l rest)
      simp only [lineIterator] at hit
      rw [if_neg (by rw [hc0]; decide)] at hit
      rw [if_neg (by rw [hc0]; exact fun hh => absurd hh.1 (by decide))] at hit
      rw [if_neg (by rw [hc0]; exact fun hh => absurd hh.1 (by decide))] at hit
      rw [if_neg (by rw [hc0]
                     rintro (⟨hh, -⟩ | ⟨hh, -⟩ | ⟨hh, -⟩) <;> exact absurd hh (by decide))] at hit
      rw [if_neg (by rw [hc0]; exact fun hh => absurd hh.1 (by decide))] at hit
      rw [if_neg (by rw [hc0]; exact fun hh => absurd hh.1 (by decide))] at hit
      rw [if_neg (by rw [hc0]; decide)] at hit
      rw [if_neg (by rw [hc0]; exact fun hh => absurd hh.1 (by decide))] at hit
      rw [if_neg (by rw [hc0]; exact fun hh => absurd hh.1 (by decide))] at hit
      rw [if_neg (by rw [hc0]; decide)] at hit
      rw [if_pos hc0] at hit
      rcases List.mem_cons.mp hit with hh | hh
      · rw [hh]
      · exact ih ((l :: rest).drop 1) (nf + 1) (nt + 1)
          (fun l' hl' => hall l' (List.mem_cons_of_mem l hl')) it hh

theorem pairIterator_flags :
    ∀ (fuel : Nat) (items : List LineItem)
      (fq tq : List ((LC × Line) × Bool)),
      (∀ it ∈ items, it.2.2 = false) →
      (∀ q ∈ fq, q.2 = false) →
      (∀ q ∈ tq, q.2 = false) →
      ∀ p ∈ pairIterator fuel items fq tq, p.2.2 = false := by
  intro fuel
  induction fuel with
  | zero =>
    intro items fq tq _ _ _ p hp
    simp [pairIterator] at hp
  | succ fuel ih =>
    intro items fq tq hitems hfq htq p hp
    match hfq2 : fq, htq2 : tq with
    | f :: fs, t :: ts =>
      subst hfq2 htq2
      simp only [pairIterator] at hp
      rcases List.mem_cons.mp hp with hh | hh
      · rw [hh]
        simp only
        rw [hfq f (List.mem_cons_self f fs), htq t (List.mem_cons_self t ts)]
        rfl
      · exact ih items fs ts hitems
          (fun q hq => hfq q (List.mem_cons_of_mem f hq))
          (fun q hq => htq q (List.mem_cons_of_mem t hq)) p hh
    | [], _ =>
      subst hfq2 htq2
      cases items with
      | nil => simp [pairIterator] at hp
      | cons itm rest =>
        obtain ⟨fo, tO, flag⟩ := itm
        have hflag : flag = false := hitems (fo, tO, flag) (List.mem_cons_self _ rest)
        subst hflag
        simp only [pairIterator] at hp
        refine ih rest _ _ (fun q hq => hitems q (List.mem_cons_of_mem _ hq)) ?_ ?_ p hp
        · intro q hq
          rcases List.mem_append.mp hq with hq1 | hq1
          · simp at hq1
          · cases fo <;> simp at hq1 <;> rw [hq1]
        · intro q hq
          rcases List.mem_append.mp hq with hq1 | hq1
          · exact htq q hq1
          · cases tO <;> simp at hq1 <;> rw [hq1]
    | f :: fs, [] =>
      subst hfq2 htq2
      cases items with
      | nil => simp [pairIterator] at hp
      | cons itm rest =>
        obtain ⟨fo, tO, flag⟩ := itm
        have hflag : flag = false := hitems (fo, tO, flag) (List.mem_cons_self _ rest)
        subst hflag
        simp only [pairIterator] at hp
        refine ih rest _ _ (fun q hq => hitems q (List.mem_cons_of_mem _ hq)) ?_ ?_ p hp
        · intro q hq
          rcases List.mem_append.mp hq with hq1 | hq1
          · exact hfq q hq1
          · cases fo <;> simp at hq1 <;> rw [hq1]
        · intro q hq
          rcases List.mem_append.mp hq with hq1 | hq1
          · simp at hq1
          · cases tO <;> simp at hq1 <;> rw [hq1]

theorem collectUntilDiff_none :
    ∀ (ps : List MPair), (∀ p ∈ ps, p.2.2 = false) → collectUntilDiff ps = none := by
  intro ps
  induction ps with
  | nil => intro _; rfl
  | cons p rest ih =>
    intro hall
    have hp : p.2.2 = false := hall p (List.mem_cons_self p rest)
    simp only [collectUntilDiff, hp]
    rw [ih (fun q hq => hall q (List.mem_cons_of_mem p hq))]
    rfl

theorem mdiffContext3_self (ls : List Line) : mdiffContext3 ls ls = [] := by
  have hitems : ∀ it ∈ lineIterator ((ls.map (fun l => ' ' :: ' ' :: l)).length + 2)
      (ls.map (fun l => ' ' :: ' ' :: l)) 0 0 0, it.2.2 = false := by
    apply lineIterator_ctx_flags
    intro l hl
    obtain ⟨l0, _, hl0⟩ := List.mem_map.mp hl
    rw [← hl0]
    rfl
  have hpairs := pairIterator_flags
    (2 * (lineIterator ((ls.map (fun l => ' ' :: ' ' :: l)).length + 2)
      (ls.map (fun l => ' ' :: ' ' :: l)) 0 0 0).length + 2)
    _ [] [] hitems (fun q hq => by simp at hq) (fun q hq => by simp at hq)
  have hnone := collectUntilDiff_none _ hpairs
  simp only [mdiffContext3]
  rw [differCompare_self]
  simp only [grouper, hnone]

/-- C8 counterexample: rendering "line1\nline2" against itself does NOT
produce one context row per line with matching line numbers (1,1), (2,2):
it produces no rows at all, because with identical inputs every aligned
pair is unchanged and the context grouper emits nothing. -/
theorem print_diff_round_trip_counterexample :
    (printDiffRows c8Text c8Text).map rowMarks ≠
      [(' ', some 1, some 1), (' ', some 2, some 2)] := by
  decide

/-- C8 amended: for every text X, rendering the diff of X against itself
produces no output rows at all: identical inputs yield only unchanged
aligned pairs, and `_mdiff` in context mode (context=3) elides every
unchanged run, so the row list is empty. -/
theorem print_diff_round_trip_amended :
    ∀ (X : List Char), printDiffRows X X = [] := by
  intro X
  simp only [printDiffRows]
  rw [mdiffContext3_self]
  rfl
